import Mathlib

/-!
Verification of the IPv4/IPv6 literal validators of `src/index.ts`.

The source is shallowly embedded: strings become `List Char`, the JS
`String.prototype.split` with a one-character separator becomes `splitOnC`,
and the two anchored regexes (`ipPair` and `ipV4Pattern`) become executable
character-class matchers over code points.  The three validator functions
`parsePossibleIpString`, `isValidFullIp`, `isValidCompactIp` and the entry
point `isValidIp` are translated clause by clause from the source.
-/

set_option maxHeartbeats 1000000

/-- Convenience conversion from a string literal to the character-list model. -/
def cs (s : String) : List Char := s.toList

/-- Character class `[0-9]` of the source regexes, stated on code points
(48 is the code of the character 0 and 57 of the character 9). -/
def isDigitC (c : Char) : Bool := 48 ≤ c.toNat && c.toNat ≤ 57

/-- Character class `[0-9A-Fa-f]` of the regex `ipPair` (65–70 are the codes
of A–F and 97–102 of a–f). -/
def isHexC (c : Char) : Bool :=
  isDigitC c || (65 ≤ c.toNat && c.toNat ≤ 70) || (97 ≤ c.toNat && c.toNat ≤ 102)

/-- Test of the anchored regex `ipPair`, `^[0-9A-Fa-f]{1,4}$` (line 9–10 of
`src/index.ts`): one to four hexadecimal characters and nothing else. -/
def ipPair (s : List Char) : Bool :=
  1 ≤ s.length && s.length ≤ 4 && s.all isHexC

/-- Test of one octet group of the regex `ipV4Pattern`,
`(25[0-5])|(2[0-4][0-9])|(1[0-9]{2})|([1-9][0-9])|[0-9]`, arranged by the
length of the candidate field.  The three-character alternatives use the
codes 49 for the character 1, 50 for 2, 53 for 5, and 48–52 for the class
`[0-4]`; the two-character alternative uses 49–57 for `[1-9]`. -/
def isOctet (s : List Char) : Bool :=
  match s with
  | [a, b, c] =>
    (a.toNat = 50 && b.toNat = 53 && (48 ≤ c.toNat && c.toNat ≤ 53)) ||
    (a.toNat = 50 && (48 ≤ b.toNat && b.toNat ≤ 52) && isDigitC c) ||
    (a.toNat = 49 && isDigitC b && isDigitC c)
  | [a, b] => (49 ≤ a.toNat && a.toNat ≤ 57) && isDigitC b
  | [a] => isDigitC a
  | _ => false

/-- JS `String.prototype.split` with a one-character separator, as used on
lines 16 and 29 of the source.  On the empty string it yields `[[]]`, on a
string with k separators it yields the k+1 (possibly empty) segments. -/
def splitOnC (sep : Char) : List Char → List (List Char)
  | [] => [[]]
  | c :: rest =>
    let r := splitOnC sep rest
    if c = sep then [] :: r else (c :: r.headD []) :: r.tail

/-- Test of the anchored regex `ipV4Pattern` (lines 11–12 of the source):
an octet followed by exactly three groups of a literal dot and an octet.
Because octet fields contain no dot, a string is in the language of that
regex exactly when splitting it on the dot yields four fields that each
match the octet alternation. -/
def ipV4Pattern (s : List Char) : Bool :=
  (splitOnC '.' s).length == 4 && (splitOnC '.' s).all isOctet

/-- Result of `parsePossibleIpString` (lines 14–38): a one-element tuple
holding the trimmed parts for the full form, or a two-element tuple holding
the halves around the compaction point. -/
inductive Parsed where
  | full (parts : List (List Char))
  | compact (left right : List (List Char))
deriving DecidableEq

/-- Trimming step of lines 19–21 of the source: shift away one leading
empty segment when the first segment is empty (on an empty list the JS
index read yields undefined and nothing is removed). -/
def shiftEmpty (parts : List (List Char)) : List (List Char) :=
  if parts.head? = some [] then parts.tail else parts

/-- Trimming step of lines 24–26 of the source: pop one trailing empty
segment when the last segment is empty. -/
def popEmpty (parts : List (List Char)) : List (List Char) :=
  if parts.getLast? = some [] then parts.dropLast else parts

/-- Translation of `parsePossibleIpString` (lines 14–38 of the source):
split on the colon, shift away one leading empty segment if present, pop
away one trailing empty segment if present, then look for the first empty
segment left; if one is found at index `sep` the input is compact and the
right half receives the synthetic component `"0"`. -/
def parsePossibleIpString (value : List Char) : Parsed :=
  let parts := popEmpty (shiftEmpty (splitOnC ':' value))
  match parts.findIdx? List.isEmpty with
  | some sep => .compact (parts.take sep) (['0'] :: parts.drop (sep + 1))
  | none => .full parts

/-- Translation of `isValidFullIp` (lines 40–53): pop the last component
(`getLast?`/`dropLast` model `Array.prototype.pop`, whose result on an empty
array is `undefined`, defaulted to the empty string by `?? ''`); an IPv4
last component requires six leading pairs, otherwise seven plus a valid
popped pair. -/
def isValidFullIp (value : List (List Char)) : Bool :=
  let last := value.getLast?
  let rest := value.dropLast
  if ipV4Pattern (last.getD []) then
    rest.length == 6 && rest.all ipPair
  else
    rest.length == 7 && rest.all ipPair && ipPair (last.getD [])

/-- Translation of `isValidCompactIp` (lines 55–73): pop the last component
of the right half; an IPv4 last component bounds the remaining count by six,
otherwise by seven with the popped component itself a valid pair. -/
def isValidCompactIp (left right : List (List Char)) : Bool :=
  let last := right.getLast?
  let rest := right.dropLast
  if ipV4Pattern (last.getD []) then
    decide (left.length + rest.length ≤ 6) && left.all ipPair && rest.all ipPair
  else
    decide (left.length + rest.length ≤ 7) && left.all ipPair && rest.all ipPair &&
      ipPair (last.getD [])

/-- Model of the JS runtime values the validators are exercised with: a
string, or one of the non-string categories used by the fixture tables
(boolean, null, undefined, number, bigint, symbol, object, array). -/
inductive JsValue where
  | str (s : List Char)
  | boolean (b : Bool)
  | null
  | undefined
  | number (n : Int)
  | bigint (n : Int)
  | symbol
  | object
  | array
deriving DecidableEq

/-- Translation of `isValidIp` (lines 75–91): the exact string `"::"` is
accepted at once, any non-string is rejected, and otherwise the parsed
tuple is dispatched to the full or the compact validator. -/
def isValidIp : JsValue → Bool
  | .str s =>
    if s = cs "::" then true
    else
      match parsePossibleIpString s with
      | .full parts => isValidFullIp parts
      | .compact left right => isValidCompactIp left right
  | _ => false

/-- Modelled from the spec: the repository validates IPv4 through a zod
string schema carrying the `ipV4Pattern` regex (line 266 of the source).
The schema combinators themselves live in the zod library, outside this
repository; per the spec a non-string value is rejected by the string
schema and a string is tested against the anchored pattern. -/
def isValidIpV4 : JsValue → Bool
  | .str s => ipV4Pattern s
  | _ => false

/-!
Specification-side definitions.  These follow the words of the spec
(sections 3, 4.1, 4.2 and the glossary), not the code, and exist to be
compared with the matchers embedded from the source above.
-/

/-- Numeric value of a decimal digit string, most significant digit first. -/
def decValue (s : List Char) : Nat :=
  s.foldl (fun a c => 10 * a + (c.toNat - 48)) 0

/-- Specification of one IPv4 octet field: the minimal-digit decimal
representation of an integer 0–255, so a nonempty all-digit field with no
leading zero except the single-digit field 0 itself, of value at most 255. -/
def SpecOctet (s : List Char) : Prop :=
  s ≠ [] ∧ (∀ c ∈ s, isDigitC c = true) ∧
    (2 ≤ s.length → s.head? ≠ some '0') ∧ decValue s ≤ 255

/-- Specification of a dotted-quad IPv4 literal: exactly four octet fields
joined by literal dots. -/
def SpecIPv4 (s : List Char) : Prop :=
  ∃ o1 o2 o3 o4, s = o1 ++ '.' :: (o2 ++ '.' :: (o3 ++ '.' :: o4)) ∧
    SpecOctet o1 ∧ SpecOctet o2 ∧ SpecOctet o3 ∧ SpecOctet o4

/-- Specification of a hextet: one to four hexadecimal characters. -/
def SpecHextet (s : List Char) : Prop :=
  1 ≤ s.length ∧ s.length ≤ 4 ∧ ∀ c ∈ s, isHexC c = true

/-- Join a list of components with a separator, the inverse of splitting. -/
def joinC (sep : Char) : List (List Char) → List Char
  | [] => []
  | [p] => p
  | p :: ps => p ++ sep :: joinC sep ps

/-- Specification of a syntactically valid IPv6 address literal, following
the grammar of the spec: a full form of eight hextets, a full form of six
hextets and an embedded dotted-quad, a compact form whose explicit hextets
joined around a double colon leave room for at least one omitted zero group
in the budget of eight, or a compact form ending in a dotted-quad, which
occupies two of the eight groups. -/
def SpecIPv6 (s : List Char) : Prop :=
  (∃ hs : List (List Char), s = joinC ':' hs ∧ hs.length = 8 ∧
    ∀ h ∈ hs, SpecHextet h) ∨
  (∃ hs v4, s = joinC ':' (hs ++ [v4]) ∧ hs.length = 6 ∧
    (∀ h ∈ hs, SpecHextet h) ∧ SpecIPv4 v4) ∨
  (∃ ls rs, s = joinC ':' ls ++ ':' :: ':' :: joinC ':' rs ∧
    ls.length + rs.length + 1 ≤ 8 ∧
    (∀ h ∈ ls, SpecHextet h) ∧ ∀ h ∈ rs, SpecHextet h) ∨
  (∃ ls rs v4, s = joinC ':' ls ++ ':' :: ':' :: joinC ':' (rs ++ [v4]) ∧
    ls.length + rs.length + 3 ≤ 8 ∧
    (∀ h ∈ ls, SpecHextet h) ∧ (∀ h ∈ rs, SpecHextet h) ∧ SpecIPv4 v4)

/-!
Basic facts about characters, the splitter and the joiner.
-/

theorem char_eq_iff_toNat (a b : Char) : a = b ↔ a.toNat = b.toNat := by
  constructor
  · intro h; rw [h]
  · intro h; exact Char.ext (UInt32.ext h)

theorem splitOnC_nil (sep : Char) : splitOnC sep [] = [[]] := rfl

theorem splitOnC_cons (sep c : Char) (rest : List Char) :
    splitOnC sep (c :: rest) =
      if c = sep then [] :: splitOnC sep rest
      else (c :: (splitOnC sep rest).headD []) :: (splitOnC sep rest).tail := rfl

theorem splitOnC_ne_nil (sep : Char) (l : List Char) : splitOnC sep l ≠ [] := by
  cases l with
  | nil => simp [splitOnC_nil]
  | cons c rest =>
    rw [splitOnC_cons]
    split <;> simp

theorem splitOnC_sepFree (sep : Char) (l : List Char) (h : ∀ c ∈ l, c ≠ sep) :
    splitOnC sep l = [l] := by
  induction l with
  | nil => rfl
  | cons c rest ih =>
    rw [splitOnC_cons, ih (fun x hx => h x (List.mem_cons_of_mem _ hx))]
    simp [h c (List.mem_cons_self c rest)]

theorem splitOnC_append (sep : Char) (a b : List Char) :
    splitOnC sep (a ++ sep :: b) = splitOnC sep a ++ splitOnC sep b := by
  induction a with
  | nil => simp [splitOnC_cons, splitOnC_nil]
  | cons c as ih =>
    rw [List.cons_append, splitOnC_cons, splitOnC_cons, ih]
    cases h : splitOnC sep as with
    | nil => exact absurd h (splitOnC_ne_nil sep as)
    | cons p ps => split <;> simp

theorem joinC_nil (sep : Char) : joinC sep [] = [] := rfl

theorem joinC_single (sep : Char) (p : List Char) : joinC sep [p] = p := rfl

theorem joinC_cons (sep : Char) (p : List Char) (ps : List (List Char))
    (h : ps ≠ []) : joinC sep (p :: ps) = p ++ sep :: joinC sep ps := by
  cases ps with
  | nil => exact absurd rfl h
  | cons q qs => rfl

theorem joinC_splitOnC (sep : Char) (l : List Char) :
    joinC sep (splitOnC sep l) = l := by
  induction l with
  | nil => rfl
  | cons c rest ih =>
    rw [splitOnC_cons]
    cases h : splitOnC sep rest with
    | nil => exact absurd h (splitOnC_ne_nil sep rest)
    | cons p ps =>
      rw [h] at ih
      by_cases hc : c = sep
      · rw [if_pos hc, joinC_cons sep [] (p :: ps) (by simp), ih, hc]
        rfl
      · rw [if_neg hc]
        cases ps with
        | nil =>
          rw [joinC_single] at ih
          simp [joinC_single, ih]
        | cons q qs =>
          rw [joinC_cons sep p (q :: qs) (by simp)] at ih
          rw [List.headD, List.tail, joinC_cons sep _ (q :: qs) (by simp)]
          simp [ih]

theorem splitOnC_joinC (sep : Char) (ps : List (List Char)) (hne : ps ≠ [])
    (h : ∀ p ∈ ps, ∀ c ∈ p, c ≠ sep) :
    splitOnC sep (joinC sep ps) = ps := by
  induction ps with
  | nil => exact absurd rfl hne
  | cons p qs ih =>
    cases qs with
    | nil => rw [joinC_single]; exact splitOnC_sepFree sep p (h p (by simp))
    | cons q rs =>
      rw [joinC_cons sep p (q :: rs) (by simp), splitOnC_append,
        splitOnC_sepFree sep p (h p (by simp)),
        ih (by simp) (fun x hx => h x (List.mem_cons_of_mem _ hx))]
      rfl

theorem joinC_append (sep : Char) (a b : List (List Char)) (ha : a ≠ [])
    (hb : b ≠ []) : joinC sep (a ++ b) = joinC sep a ++ sep :: joinC sep b := by
  induction a with
  | nil => exact absurd rfl ha
  | cons p qs ih =>
    cases qs with
    | nil => rw [List.singleton_append, joinC_single, joinC_cons sep p b hb]
    | cons q rs =>
      rw [List.cons_append, joinC_cons sep p ((q :: rs) ++ b) (by simp),
        joinC_cons sep p (q :: rs) (by simp), ih (by simp)]
      simp

theorem mem_splitOnC (sep : Char) (l : List Char) (c : Char) (hc : c ∈ l) :
    c = sep ∨ ∃ p ∈ splitOnC sep l, c ∈ p := by
  induction l with
  | nil => cases hc
  | cons d rest ih =>
    rw [splitOnC_cons]
    cases h : splitOnC sep rest with
    | nil => exact absurd h (splitOnC_ne_nil sep rest)
    | cons p ps =>
      rw [h] at ih
      rcases List.mem_cons.mp hc with rfl | hmem
      · by_cases hd : c = sep
        · exact Or.inl hd
        · exact Or.inr ⟨c :: p, by simp [hd], List.mem_cons_self _ _⟩
      · rcases ih hmem with hsep | ⟨q, hq, hcq⟩
        · exact Or.inl hsep
        · by_cases hd : d = sep
          · exact Or.inr ⟨q, by simp [hd, hq], hcq⟩
          · rcases List.mem_cons.mp hq with rfl | hq2
            · exact Or.inr ⟨d :: q, by simp [hd], List.mem_cons_of_mem d hcq⟩
            · exact Or.inr ⟨q, by simp [hd, hq2], hcq⟩

/-!
Equivalence of the embedded octet matcher with the specified octet
language, and of the embedded dotted-quad matcher with the specified
dotted-quad language.
-/

theorem decValue_nil : decValue [] = 0 := rfl

theorem foldl_decValue (s : List Char) (a : Nat) :
    s.foldl (fun x c => 10 * x + (c.toNat - 48)) a =
      a * 10 ^ s.length + decValue s := by
  induction s generalizing a with
  | nil => simp [decValue]
  | cons c rest ih =>
    rw [List.foldl_cons, ih]
    have hd : decValue (c :: rest) = (c.toNat - 48) * 10 ^ rest.length +
        decValue rest := by
      show List.foldl _ (10 * 0 + (c.toNat - 48)) rest = _
      rw [ih]
      simp
    rw [hd, List.length_cons, pow_succ]
    ring

theorem decValue_cons (c : Char) (s : List Char) :
    decValue (c :: s) = (c.toNat - 48) * 10 ^ s.length + decValue s := by
  show List.foldl _ (10 * 0 + (c.toNat - 48)) s = _
  rw [foldl_decValue]
  simp

theorem decValue_lt (s : List Char) (h : ∀ c ∈ s, isDigitC c = true) :
    decValue s < 10 ^ s.length := by
  induction s with
  | nil => simp [decValue]
  | cons c rest ih =>
    have hc : 48 ≤ c.toNat ∧ c.toNat ≤ 57 := by
      simpa [isDigitC] using h c (List.mem_cons_self c rest)
    have hr := ih (fun x hx => h x (List.mem_cons_of_mem _ hx))
    rw [decValue_cons, List.length_cons, pow_succ]
    have h9 : c.toNat - 48 ≤ 9 := by omega
    calc (c.toNat - 48) * 10 ^ rest.length + decValue rest
        < (c.toNat - 48) * 10 ^ rest.length + 10 ^ rest.length := by omega
      _ = (c.toNat - 48 + 1) * 10 ^ rest.length := by ring
      _ ≤ 10 * 10 ^ rest.length := Nat.mul_le_mul_right _ (by omega)
      _ = 10 ^ rest.length * 10 := by ring

theorem decValue_one (a : Char) : decValue [a] = a.toNat - 48 := by
  simp [decValue]

theorem decValue_two (a b : Char) :
    decValue [a, b] = 10 * (a.toNat - 48) + (b.toNat - 48) := by
  simp [decValue]
  try omega

theorem decValue_three (a b c : Char) :
    decValue [a, b, c] =
      100 * (a.toNat - 48) + 10 * (b.toNat - 48) + (c.toNat - 48) := by
  simp [decValue]
  try omega

theorem isOctet_iff (s : List Char) : isOctet s = true ↔ SpecOctet s := by
  have h0 : ('0' : Char).toNat = 48 := rfl
  rcases s with _ | ⟨a, _ | ⟨b, _ | ⟨c, _ | ⟨d, t⟩⟩⟩⟩
  · simp [isOctet, SpecOctet]
  · simp [isOctet, SpecOctet, isDigitC, decValue_one, char_eq_iff_toNat a '0', h0]
    try omega
  · simp [isOctet, SpecOctet, isDigitC, decValue_two, char_eq_iff_toNat a '0', h0]
    try omega
  · simp [isOctet, SpecOctet, isDigitC, decValue_three, char_eq_iff_toNat a '0', h0]
    try omega
  · constructor
    · intro h
      exact absurd h (by simp [isOctet])
    · rintro ⟨-, hdig, hlead, hval⟩
      exfalso
      have ha : 48 ≤ a.toNat ∧ a.toNat ≤ 57 := by
        simpa [isDigitC] using hdig a (by simp)
      have hne : ¬ a = '0' := by
        simpa using hlead (by simp)
      have ha1 : 49 ≤ a.toNat := by
        rw [char_eq_iff_toNat a '0', h0] at hne
        omega
      have hpow : 1000 ≤ 10 ^ (b :: c :: d :: t).length := by
        have : (10 : Nat) ^ 3 ≤ 10 ^ (b :: c :: d :: t).length :=
          Nat.pow_le_pow_right (by norm_num) (by simp)
        simpa using this
      have hge : 1000 ≤ decValue (a :: b :: c :: d :: t) := by
        rw [decValue_cons]
        have : 1 * 1000 ≤ (a.toNat - 48) * 10 ^ (b :: c :: d :: t).length :=
          Nat.mul_le_mul (by omega) hpow
        omega
      omega

theorem ipPair_iff (s : List Char) : ipPair s = true ↔ SpecHextet s := by
  simp [ipPair, SpecHextet, List.all_eq_true, and_assoc]

instance specHextet_dec (s : List Char) : Decidable (SpecHextet s) :=
  decidable_of_iff (ipPair s = true) (ipPair_iff s)

theorem isDigitC_ne_dot (c : Char) (h : isDigitC c = true) : c ≠ '.' := by
  intro he
  rw [char_eq_iff_toNat c '.'] at he
  have hd : ('.' : Char).toNat = 46 := rfl
  simp [isDigitC] at h
  omega

theorem isDigitC_ne_colon (c : Char) (h : isDigitC c = true) : c ≠ ':' := by
  intro he
  rw [char_eq_iff_toNat c ':'] at he
  have hd : (':' : Char).toNat = 58 := rfl
  simp [isDigitC] at h
  omega

theorem isHexC_ne_colon (c : Char) (h : isHexC c = true) : c ≠ ':' := by
  intro he
  rw [char_eq_iff_toNat c ':'] at he
  have hd : (':' : Char).toNat = 58 := rfl
  simp [isHexC, isDigitC] at h
  omega

theorem isHexC_ne_dot (c : Char) (h : isHexC c = true) : c ≠ '.' := by
  intro he
  rw [char_eq_iff_toNat c '.'] at he
  have hd : ('.' : Char).toNat = 46 := rfl
  simp [isHexC, isDigitC] at h
  omega

theorem specOctet_dotFree (o : List Char) (h : SpecOctet o) :
    ∀ c ∈ o, c ≠ '.' :=
  fun c hc => isDigitC_ne_dot c (h.2.1 c hc)

theorem ipV4Pattern_iff (s : List Char) : ipV4Pattern s = true ↔ SpecIPv4 s := by
  constructor
  · intro h
    rw [ipV4Pattern, Bool.and_eq_true, beq_iff_eq, List.all_eq_true] at h
    obtain ⟨hlen, hall⟩ := h
    have hjoin := joinC_splitOnC '.' s
    rcases hsp : splitOnC '.' s with _ | ⟨o1, _ | ⟨o2, _ | ⟨o3, _ | ⟨o4, rest⟩⟩⟩⟩ <;>
      rw [hsp] at hlen <;> simp at hlen
    subst hlen
    rw [hsp] at hjoin hall
    refine ⟨o1, o2, o3, o4, ?_, ?_, ?_, ?_, ?_⟩
    · rw [← hjoin]
      rfl
    · exact (isOctet_iff o1).mp (hall o1 (by simp))
    · exact (isOctet_iff o2).mp (hall o2 (by simp))
    · exact (isOctet_iff o3).mp (hall o3 (by simp))
    · exact (isOctet_iff o4).mp (hall o4 (by simp))
  · rintro ⟨o1, o2, o3, o4, rfl, h1, h2, h3, h4⟩
    have hsp : splitOnC '.' (o1 ++ '.' :: (o2 ++ '.' :: (o3 ++ '.' :: o4))) =
        [o1, o2, o3, o4] := by
      rw [splitOnC_append '.' o1, splitOnC_append '.' o2, splitOnC_append '.' o3,
        splitOnC_sepFree '.' o1 (specOctet_dotFree o1 h1),
        splitOnC_sepFree '.' o2 (specOctet_dotFree o2 h2),
        splitOnC_sepFree '.' o3 (specOctet_dotFree o3 h3),
        splitOnC_sepFree '.' o4 (specOctet_dotFree o4 h4)]
      rfl
    rw [ipV4Pattern, hsp]
    simp [List.all_eq_true]
    exact ⟨(isOctet_iff o1).mpr h1, (isOctet_iff o2).mpr h2,
      (isOctet_iff o3).mpr h3, (isOctet_iff o4).mpr h4⟩

theorem ipPair_ne_nil (p : List Char) (h : ipPair p = true) : p ≠ [] := by
  intro he
  subst he
  simp [ipPair] at h

theorem ipPair_colonFree (p : List Char) (h : ipPair p = true) :
    ∀ c ∈ p, c ≠ ':' := by
  intro c hc
  rw [ipPair, Bool.and_eq_true, Bool.and_eq_true, List.all_eq_true] at h
  exact isHexC_ne_colon c (h.2 c hc)

theorem ipV4Pattern_ne_nil (v : List Char) (h : ipV4Pattern v = true) :
    v ≠ [] := by
  intro he
  subst he
  simp [ipV4Pattern, splitOnC_nil] at h

theorem ipV4Pattern_colonFree (v : List Char) (h : ipV4Pattern v = true) :
    ∀ c ∈ v, c ≠ ':' := by
  intro c hc
  rw [ipV4Pattern, Bool.and_eq_true, beq_iff_eq, List.all_eq_true] at h
  rcases mem_splitOnC '.' v c hc with rfl | ⟨p, hp, hcp⟩
  · intro he
    exact absurd (char_eq_iff_toNat _ _ |>.mp he) (by decide)
  · have := (isOctet_iff p).mp (h.2 p hp)
    exact isDigitC_ne_colon c (this.2.1 c hcp)

theorem ipPair_not_v4 (p : List Char) (h : p.all isHexC = true) :
    ipV4Pattern p = false := by
  have hdf : ∀ c ∈ p, c ≠ '.' := by
    rw [List.all_eq_true] at h
    exact fun c hc => isHexC_ne_dot c (h c hc)
  rw [ipV4Pattern, splitOnC_sepFree '.' p hdf]
  rfl

-- Sanity fixtures, mirroring the table on lines 102–196 of the source.
example : isValidIp (.str (cs "")) = false := by decide
example : isValidIp (.str (cs ":::")) = false := by decide
example : isValidIp (.str (cs "FF:::")) = false := by decide
example : isValidIp (.str (cs ":::FF")) = false := by decide
example : isValidIp (.str (cs "FF:FF:FF:FF")) = false := by decide
example : isValidIp (.str (cs "FF:FF:FF:FF:192.168.0.1")) = false := by decide
example : isValidIp (.str (cs "11:22:33:44:55:66:77:88::")) = false := by decide
example : isValidIp (.str (cs "::88:99:AA:BB:CC:DD:EE:FF")) = false := by decide
example : isValidIp (.str (cs "11:22:33:44:55:66::192.168.0.1")) = false := by decide
example : isValidIp (.str (cs "::AA:BB:CC:DD:EE:FF:192.168.0.1")) = false := by decide
example : isValidIp (.str (cs "G111:22:33:44:55:66:77:88")) = false := by decide
example : isValidIp (.str (cs "88:99:AA:BB:CC:DD:EE:7FFFF")) = false := by decide
example : isValidIp (.str (cs "::")) = true := by decide
example : isValidIp (.str (cs "::192.168.0.4")) = true := by decide
example : isValidIp (.str (cs "11::")) = true := by decide
example : isValidIp (.str (cs "11:22:33:44:55:66:77::")) = true := by decide
example : isValidIp (.str (cs "::FF")) = true := by decide
example : isValidIp (.str (cs "::99:AA:BB:CC:DD:EE:FF")) = true := by decide
example : isValidIp (.str (cs "11::192.168.0.1")) = true := by decide
example : isValidIp (.str (cs "11:22:33:44:55::192.168.0.1")) = true := by decide
example : isValidIp (.str (cs "::BB:CC:DD:EE:FF:192.168.0.1")) = true := by decide
example : isValidIp (.str (cs "1:22:333:4444:55:66::88")) = true := by decide
example : isValidIp (.str (cs "11::33:44:55:66:77")) = true := by decide
example : isValidIp (.str (cs "11::33")) = true := by decide
example : isValidIp (.str (cs "11::33:44:0:66:192.168.0.3")) = true := by decide
example : isValidIp (.str (cs "11::33:192.168.0.3")) = true := by decide
example : isValidIp (.str (cs "1:2:3:4:5:6:7:8")) = true := by decide
example : isValidIpV4 (.str (cs "0.0.0.0")) = true := by decide
example : isValidIpV4 (.str (cs "255.255.255.255")) = true := by decide
example : isValidIpV4 (.str (cs "192.168.0.2")) = true := by decide
example : isValidIpV4 (.str (cs "192.168.0.259")) = false := by decide
example : isValidIpV4 (.str (cs "0192.168.0.2")) = false := by decide
example : isValidIpV4 (.str (cs "192.168.00.2")) = false := by decide
example : isValidIpV4 (.str (cs "192.168.0.02")) = false := by decide
example : isValidIpV4 (.str (cs "192.168.0")) = false := by decide
example : isValidIpV4 (.str (cs "192.168.0.2.8")) = false := by decide

/-!
Machinery for evaluating the parser on structured inputs.
-/

theorem findIdx?_none_of_all {α : Type} (p : α → Bool) (l : List α) (i : Nat)
    (h : ∀ x ∈ l, p x = false) : List.findIdx? p l i = none := by
  induction l generalizing i with
  | nil => simp [List.findIdx?_nil]
  | cons a l ih =>
    have hr := ih (i + 1) (fun x hx => h x (List.mem_cons_of_mem a hx))
    rw [List.findIdx?_cons, h a (List.mem_cons_self a l), if_neg (by simp)]
    exact hr

theorem findIdx?_append_some {α : Type} (p : α → Bool) (l : List α) (x : α)
    (r : List α) (i : Nat) (hl : ∀ y ∈ l, p y = false) (hx : p x = true) :
    List.findIdx? p (l ++ x :: r) i = some (i + l.length) := by
  induction l generalizing i with
  | nil => simp [List.findIdx?_cons, hx]
  | cons a l ih =>
    rw [List.cons_append, List.findIdx?_cons, hl a (by simp)]
    simp only [Bool.false_eq_true, if_false]
    rw [ih (i + 1) (fun y hy => hl y (by simp [hy]))]
    simp only [List.length_cons, Option.some.injEq]
    omega

theorem drop_len_succ {α : Type} (l : List α) (x : α) (r : List α) :
    (l ++ x :: r).drop (l.length + 1) = r := by
  induction l with
  | nil => simp
  | cons a l ih => simp [ih]

theorem isEmpty_false_of_ne {α : Type} (l : List α) (h : l ≠ []) :
    l.isEmpty = false := by
  cases l with
  | nil => exact absurd rfl h
  | cons a t => rfl

theorem shiftEmpty_of_head (parts : List (List Char))
    (h : parts.head? ≠ some []) : shiftEmpty parts = parts := if_neg h

theorem shiftEmpty_cons_empty (ps : List (List Char)) :
    shiftEmpty ([] :: ps) = ps := by
  simp [shiftEmpty]

theorem popEmpty_of_last (parts : List (List Char))
    (h : parts.getLast? ≠ some []) : popEmpty parts = parts := if_neg h

theorem popEmpty_concat_empty (ps : List (List Char)) :
    popEmpty (ps ++ [[]]) = ps := by
  simp [popEmpty, List.getLast?_concat, List.dropLast_concat]

theorem parse_eq_full (value : List Char) (q : List (List Char))
    (hq : popEmpty (shiftEmpty (splitOnC ':' value)) = q)
    (hnone : q.findIdx? List.isEmpty = none) :
    parsePossibleIpString value = .full q := by
  unfold parsePossibleIpString
  rw [hq]
  simp only [hnone]

theorem parse_eq_compact (value : List Char) (q : List (List Char)) (i : Nat)
    (hq : popEmpty (shiftEmpty (splitOnC ':' value)) = q)
    (hsome : q.findIdx? List.isEmpty = some i) :
    parsePossibleIpString value =
      .compact (q.take i) (['0'] :: q.drop (i + 1)) := by
  unfold parsePossibleIpString
  rw [hq]
  simp only [hsome]

theorem isValidFullIp_concat (rest : List (List Char)) (last : List Char) :
    isValidFullIp (rest ++ [last]) =
      if ipV4Pattern last then rest.length == 6 && rest.all ipPair
      else rest.length == 7 && rest.all ipPair && ipPair last := by
  unfold isValidFullIp
  rw [List.getLast?_concat, List.dropLast_concat]
  rfl

theorem isValidFullIp_nil : isValidFullIp [] = false := by decide

theorem isValidCompactIp_concat (left rest : List (List Char))
    (last : List Char) :
    isValidCompactIp left (rest ++ [last]) =
      if ipV4Pattern last then
        decide (left.length + rest.length ≤ 6) && left.all ipPair &&
          rest.all ipPair
      else
        decide (left.length + rest.length ≤ 7) && left.all ipPair &&
          rest.all ipPair && ipPair last := by
  unfold isValidCompactIp
  rw [List.getLast?_concat, List.dropLast_concat]
  rfl

theorem isValidCompactIp_nil (left : List (List Char)) :
    isValidCompactIp left [] = false := by
  unfold isValidCompactIp
  simp [ipPair, ipV4Pattern, splitOnC_nil]


/-!
Evaluation of the parser and validator on inputs built from component
lists, covering the full form, the compact form and the embedded IPv4
variants.
-/

theorem getLast?_ne_of_nonempty (ls : List (List Char)) (hne : ls ≠ [])
    (hnil : ∀ p ∈ ls, p ≠ []) : ls.getLast? ≠ some [] := by
  rcases List.eq_nil_or_concat ls with rfl | ⟨L, b, hLb⟩
  · exact absurd rfl hne
  · rw [hLb, List.concat_eq_append, List.getLast?_concat]
    simp only [ne_eq, Option.some.injEq]
    apply hnil b
    rw [hLb, List.concat_eq_append]
    simp

theorem shiftEmpty_append_left (ls t : List (List Char)) (hne : ls ≠ [])
    (hnil : ∀ p ∈ ls, p ≠ []) : shiftEmpty (ls ++ t) = ls ++ t := by
  apply shiftEmpty_of_head
  obtain ⟨h1, t1, rfl⟩ := List.exists_cons_of_ne_nil hne
  simp only [List.cons_append, List.head?_cons, ne_eq, Option.some.injEq]
  exact hnil h1 (by simp)

theorem shiftEmpty_of_ne (ls : List (List Char)) (hne : ls ≠ [])
    (hnil : ∀ p ∈ ls, p ≠ []) : shiftEmpty ls = ls := by
  apply shiftEmpty_of_head
  obtain ⟨h1, t, rfl⟩ := List.exists_cons_of_ne_nil hne
  simp only [List.head?_cons, ne_eq, Option.some.injEq]
  exact hnil h1 (by simp)

theorem parse_join_full (hs : List (List Char)) (hne : hs ≠ [])
    (hnil : ∀ p ∈ hs, p ≠ []) (hcf : ∀ p ∈ hs, ∀ c ∈ p, c ≠ ':') :
    parsePossibleIpString (joinC ':' hs) = .full hs := by
  have hsp : splitOnC ':' (joinC ':' hs) = hs := splitOnC_joinC ':' hs hne hcf
  have hshift : shiftEmpty hs = hs := shiftEmpty_of_ne hs hne hnil
  have hpop : popEmpty hs = hs :=
    popEmpty_of_last hs (getLast?_ne_of_nonempty hs hne hnil)
  refine parse_eq_full _ hs (by rw [hsp, hshift, hpop]) ?_
  exact findIdx?_none_of_all _ hs 0 (fun x hx => isEmpty_false_of_ne x (hnil x hx))

theorem splitOnC_colon_cons (rs : List Char) :
    splitOnC ':' (':' :: rs) = [] :: splitOnC ':' rs := by
  rw [splitOnC_cons]
  simp

theorem parse_join_compact (ls rs : List (List Char))
    (hlnil : ∀ p ∈ ls, p ≠ []) (hlcf : ∀ p ∈ ls, ∀ c ∈ p, c ≠ ':')
    (hrnil : ∀ p ∈ rs, p ≠ []) (hrcf : ∀ p ∈ rs, ∀ c ∈ p, c ≠ ':') :
    parsePossibleIpString (joinC ':' ls ++ ':' :: ':' :: joinC ':' rs) =
      .compact ls (['0'] :: rs) := by
  by_cases hls : ls = []
  · subst hls
    by_cases hrs : rs = []
    · subst hrs
      have hq : popEmpty (shiftEmpty (splitOnC ':'
          (joinC ':' ([] : List (List Char)) ++ ':' :: ':' ::
            joinC ':' ([] : List (List Char))))) = [[]] := by
        have e2 : splitOnC ':'
            (joinC ':' ([] : List (List Char)) ++ ':' :: ':' ::
              joinC ':' ([] : List (List Char))) = [[], [], []] := rfl
        rw [e2, shiftEmpty_cons_empty]
        exact popEmpty_concat_empty [[]]
      have hfind : List.findIdx? List.isEmpty ([[]] : List (List Char)) 0 = some 0 := by
        simpa using findIdx?_append_some List.isEmpty [] ([] : List Char) [] 0
          (by simp) (by simp)
      rw [parse_eq_compact _ [[]] 0 hq hfind]
      simp
    · have e2 : splitOnC ':'
          (joinC ':' ([] : List (List Char)) ++ ':' :: ':' :: joinC ':' rs) =
          [] :: [] :: rs := by
        show splitOnC ':' (':' :: ':' :: joinC ':' rs) = [] :: [] :: rs
        rw [splitOnC_colon_cons, splitOnC_colon_cons,
          splitOnC_joinC ':' rs hrs hrcf]
      have hq : popEmpty (shiftEmpty (splitOnC ':'
          (joinC ':' ([] : List (List Char)) ++ ':' :: ':' :: joinC ':' rs))) =
          [] :: rs := by
        rw [e2, shiftEmpty_cons_empty]
        apply popEmpty_of_last
        have hlast := getLast?_ne_of_nonempty rs hrs hrnil
        rcases List.eq_nil_or_concat rs with heq | ⟨L, b, hLb⟩
        · exact absurd heq hrs
        · rw [hLb, List.concat_eq_append] at hlast ⊢
          rw [show ([] :: (L ++ [b]) : List (List Char)) =
            ([] :: L) ++ [b] from rfl, List.getLast?_concat]
          rw [List.getLast?_concat] at hlast
          exact hlast
      have hfind : List.findIdx? List.isEmpty (([] : List Char) :: rs) 0 = some 0 := by
        simpa using findIdx?_append_some List.isEmpty [] ([] : List Char) rs 0
          (by simp) (by simp)
      rw [parse_eq_compact _ ([] :: rs) 0 hq hfind]
      simp
  · by_cases hrs : rs = []
    · subst hrs
      have e2 : splitOnC ':'
          (joinC ':' ls ++ ':' :: ':' :: joinC ':' ([] : List (List Char))) =
          ls ++ [[], []] := by
        show splitOnC ':' (joinC ':' ls ++ ':' :: [':']) = ls ++ [[], []]
        rw [splitOnC_append, splitOnC_joinC ':' ls hls hlcf]
        rfl
      have hq : popEmpty (shiftEmpty (splitOnC ':'
          (joinC ':' ls ++ ':' :: ':' :: joinC ':' ([] : List (List Char))))) =
          ls ++ [[]] := by
        rw [e2, shiftEmpty_append_left ls [[], []] hls hlnil,
          show (ls ++ [[], []] : List (List Char)) = (ls ++ [[]]) ++ [[]] by simp,
          popEmpty_concat_empty]
      have hfind : List.findIdx? List.isEmpty (ls ++ [[]]) 0 =
          some ls.length := by
        simpa using findIdx?_append_some List.isEmpty ls ([] : List Char) [] 0
          (fun y hy => isEmpty_false_of_ne y (hlnil y hy)) (by simp)
      rw [parse_eq_compact _ (ls ++ [[]]) ls.length hq hfind]
      rw [show (ls ++ [[]] : List (List Char)) = ls ++ [] :: [] from rfl,
        List.take_left, drop_len_succ]
    · have e2 : splitOnC ':'
          (joinC ':' ls ++ ':' :: ':' :: joinC ':' rs) = ls ++ [] :: rs := by
        rw [splitOnC_append, splitOnC_colon_cons,
          splitOnC_joinC ':' ls hls hlcf, splitOnC_joinC ':' rs hrs hrcf]
      have hq : popEmpty (shiftEmpty (splitOnC ':'
          (joinC ':' ls ++ ':' :: ':' :: joinC ':' rs))) = ls ++ [] :: rs := by
        rw [e2, shiftEmpty_append_left ls ([] :: rs) hls hlnil]
        apply popEmpty_of_last
        have hlast := getLast?_ne_of_nonempty rs hrs hrnil
        rcases List.eq_nil_or_concat rs with heq | ⟨L, b, hLb⟩
        · exact absurd heq hrs
        · rw [hLb, List.concat_eq_append] at hlast ⊢
          rw [show (ls ++ [] :: (L ++ [b]) : List (List Char)) =
            (ls ++ [] :: L) ++ [b] by simp, List.getLast?_concat]
          rw [List.getLast?_concat] at hlast
          exact hlast
      have hfind : List.findIdx? List.isEmpty (ls ++ [] :: rs) 0 =
          some ls.length := by
        simpa using findIdx?_append_some List.isEmpty ls ([] : List Char) rs 0
          (fun y hy => isEmpty_false_of_ne y (hlnil y hy)) (by simp)
      rw [parse_eq_compact _ (ls ++ [] :: rs) ls.length hq hfind]
      rw [List.take_left, drop_len_succ]

/-!
Acceptance of the validator on inputs built from component lists.
-/

theorem isValidIp_full (s : List Char) (hne : s ≠ cs "::")
    (q : List (List Char)) (hp : parsePossibleIpString s = .full q) :
    isValidIp (.str s) = isValidFullIp q := by
  show (if s = cs "::" then true
    else
      match parsePossibleIpString s with
      | .full parts => isValidFullIp parts
      | .compact left right => isValidCompactIp left right) = isValidFullIp q
  rw [if_neg hne, hp]

theorem isValidIp_compact (s : List Char) (hne : s ≠ cs "::")
    (l r : List (List Char)) (hp : parsePossibleIpString s = .compact l r) :
    isValidIp (.str s) = isValidCompactIp l r := by
  show (if s = cs "::" then true
    else
      match parsePossibleIpString s with
      | .full parts => isValidFullIp parts
      | .compact left right => isValidCompactIp left right) = isValidCompactIp l r
  rw [if_neg hne, hp]

theorem joinC_ne_dcolon (ps : List (List Char)) (hne : ps ≠ [])
    (hcf : ∀ p ∈ ps, ∀ c ∈ p, c ≠ ':') (hx : ps ≠ [[], [], []]) :
    joinC ':' ps ≠ cs "::" := by
  intro heq
  have hsp := splitOnC_joinC ':' ps hne hcf
  rw [heq] at hsp
  have h2 : splitOnC ':' (cs "::") = [[], [], []] := by decide
  rw [h2] at hsp
  exact hx hsp.symm

theorem compact_ne_dcolon (a b : List Char) (hb : b ≠ []) :
    a ++ ':' :: ':' :: b ≠ cs "::" := by
  intro heq
  have hlen : (a ++ ':' :: ':' :: b).length = 2 := by
    rw [heq]
    rfl
  rw [List.length_append] at hlen
  simp only [List.length_cons] at hlen
  have := List.length_pos.mpr hb
  omega

theorem joinC_ne_nil (ps : List (List Char)) (hne : ps ≠ [])
    (hnil : ∀ p ∈ ps, p ≠ []) : joinC ':' ps ≠ [] := by
  obtain ⟨p, t, rfl⟩ := List.exists_cons_of_ne_nil hne
  have hp : p ≠ [] := hnil p (by simp)
  cases t with
  | nil => exact hp
  | cons q ts =>
    rw [joinC_cons ':' p (q :: ts) (by simp)]
    simp [hp]

theorem ipPair_all_hex (p : List Char) (h : ipPair p = true) :
    p.all isHexC = true := by
  rw [ipPair, Bool.and_eq_true, Bool.and_eq_true] at h
  exact h.2

theorem valid_full_hextets (hs : List (List Char)) (hne : hs ≠ [])
    (hall : ∀ h ∈ hs, ipPair h = true) :
    (isValidIp (.str (joinC ':' hs)) = true) ↔ hs.length = 8 := by
  have hnil : ∀ p ∈ hs, p ≠ [] := fun p hp => ipPair_ne_nil p (hall p hp)
  have hcf : ∀ p ∈ hs, ∀ c ∈ p, c ≠ ':' := fun p hp => ipPair_colonFree p (hall p hp)
  have hdc : joinC ':' hs ≠ cs "::" := by
    apply joinC_ne_dcolon hs hne hcf
    intro heq
    have hmem : ([] : List Char) ∈ hs := by
      rw [heq]
      simp
    exact hnil [] hmem rfl
  rw [isValidIp_full _ hdc hs (parse_join_full hs hne hnil hcf)]
  rcases List.eq_nil_or_concat hs with heq | ⟨L, b, hLb⟩
  · exact absurd heq hne
  · subst hLb
    simp only [List.concat_eq_append] at hall hne ⊢
    rw [isValidFullIp_concat]
    have hb : ipPair b = true := hall b (by simp)
    have hbv4 : ipV4Pattern b = false := ipPair_not_v4 b (ipPair_all_hex b hb)
    rw [hbv4]
    simp only [Bool.false_eq_true, if_false, Bool.and_eq_true, beq_iff_eq,
      List.all_eq_true, List.length_append, List.length_cons, List.length_nil]
    constructor
    · rintro ⟨⟨h7, -⟩, -⟩
      omega
    · intro h8
      exact ⟨⟨by omega, fun x hx => hall x (by simp [hx])⟩, hb⟩

theorem valid_full_v4 (hs : List (List Char)) (v4 : List Char)
    (hnil : ∀ p ∈ hs, p ≠ []) (hcf : ∀ p ∈ hs, ∀ c ∈ p, c ≠ ':')
    (hv4 : ipV4Pattern v4 = true) :
    (isValidIp (.str (joinC ':' (hs ++ [v4]))) = true) ↔
      (hs.length = 6 ∧ ∀ h ∈ hs, ipPair h = true) := by
  have hvnil := ipV4Pattern_ne_nil v4 hv4
  have hvcf := ipV4Pattern_colonFree v4 hv4
  have hne : hs ++ [v4] ≠ [] := by simp
  have hnil2 : ∀ p ∈ hs ++ [v4], p ≠ [] := by
    intro p hp
    rcases List.mem_append.mp hp with h | h
    · exact hnil p h
    · rw [List.mem_singleton.mp h]
      exact hvnil
  have hcf2 : ∀ p ∈ hs ++ [v4], ∀ c ∈ p, c ≠ ':' := by
    intro p hp
    rcases List.mem_append.mp hp with h | h
    · exact hcf p h
    · rw [List.mem_singleton.mp h]
      exact hvcf
  have hdc : joinC ':' (hs ++ [v4]) ≠ cs "::" := by
    apply joinC_ne_dcolon _ hne hcf2
    intro heq
    apply hvnil
    have h1 : (hs ++ [v4]).getLast? = some v4 := List.getLast?_concat hs
    rw [heq] at h1
    have h2 : ([[], [], []] : List (List Char)).getLast? = some [] := rfl
    rw [h2] at h1
    exact (Option.some.injEq _ _ ▸ h1).symm
  rw [isValidIp_full _ hdc (hs ++ [v4]) (parse_join_full _ hne hnil2 hcf2),
    isValidFullIp_concat, hv4]
  simp [List.all_eq_true]

theorem valid_compact_hextets (ls rs : List (List Char))
    (hlall : ∀ h ∈ ls, ipPair h = true) (hrall : ∀ h ∈ rs, ipPair h = true) :
    (isValidIp (.str (joinC ':' ls ++ ':' :: ':' :: joinC ':' rs)) = true) ↔
      ls.length + rs.length ≤ 7 := by
  have hlnil : ∀ p ∈ ls, p ≠ [] := fun p hp => ipPair_ne_nil p (hlall p hp)
  have hlcf : ∀ p ∈ ls, ∀ c ∈ p, c ≠ ':' :=
    fun p hp => ipPair_colonFree p (hlall p hp)
  have hrnil : ∀ p ∈ rs, p ≠ [] := fun p hp => ipPair_ne_nil p (hrall p hp)
  have hrcf : ∀ p ∈ rs, ∀ c ∈ p, c ≠ ':' :=
    fun p hp => ipPair_colonFree p (hrall p hp)
  by_cases hdc : (joinC ':' ls ++ ':' :: ':' :: joinC ':' rs) = cs "::"
  · have hls : ls = [] := by
      by_contra hne
      have := joinC_ne_nil ls hne hlnil
      have hlen : (joinC ':' ls ++ ':' :: ':' :: joinC ':' rs).length = 2 := by
        rw [hdc]
        rfl
      rw [List.length_append] at hlen
      simp only [List.length_cons] at hlen
      have := List.length_pos.mpr this
      omega
    have hrs : rs = [] := by
      by_contra hne
      have := joinC_ne_nil rs hne hrnil
      have hlen : (joinC ':' ls ++ ':' :: ':' :: joinC ':' rs).length = 2 := by
        rw [hdc]
        rfl
      rw [List.length_append] at hlen
      simp only [List.length_cons] at hlen
      have := List.length_pos.mpr this
      omega
    subst hls
    subst hrs
    rw [hdc]
    simp [isValidIp]
  · rw [isValidIp_compact _ hdc ls (['0'] :: rs)
      (parse_join_compact ls rs hlnil hlcf hrnil hrcf)]
    rcases List.eq_nil_or_concat rs with hre | ⟨L, b, hLb⟩
    · subst hre
      rw [show (['0'] :: ([] : List (List Char))) = [] ++ [['0']] from rfl,
        isValidCompactIp_concat]
      have h0v4 : ipV4Pattern ['0'] = false := by decide
      rw [h0v4]
      simp only [Bool.false_eq_true, if_false]
      constructor
      · intro h
        rw [Bool.and_eq_true, Bool.and_eq_true, Bool.and_eq_true] at h
        have hc := h.1.1.1
        simp only [decide_eq_true_eq, List.length_nil] at hc
        simp only [List.length_nil]
        omega
      · intro h7
        rw [Bool.and_eq_true, Bool.and_eq_true, Bool.and_eq_true]
        refine ⟨⟨⟨?_, ?_⟩, ?_⟩, ?_⟩
        · simp only [decide_eq_true_eq, List.length_nil]
          omega
        · rw [List.all_eq_true]
          exact hlall
        · simp
        · decide
    · subst hLb
      simp only [List.concat_eq_append] at hrall hrnil hrcf ⊢
      rw [show (['0'] :: (L ++ [b]) : List (List Char)) = (['0'] :: L) ++ [b]
        from rfl, isValidCompactIp_concat]
      have hb : ipPair b = true := hrall b (by simp)
      have hbv4 : ipV4Pattern b = false := ipPair_not_v4 b (ipPair_all_hex b hb)
      rw [hbv4]
      simp only [Bool.false_eq_true, if_false]
      constructor
      · intro h
        rw [Bool.and_eq_true, Bool.and_eq_true, Bool.and_eq_true] at h
        have hc := h.1.1.1
        simp only [decide_eq_true_eq, List.length_cons] at hc
        simp only [List.length_append, List.length_cons, List.length_nil]
        omega
      · intro hc
        simp only [List.length_append, List.length_cons, List.length_nil] at hc
        rw [Bool.and_eq_true, Bool.and_eq_true, Bool.and_eq_true]
        refine ⟨⟨⟨?_, ?_⟩, ?_⟩, hb⟩
        · simp only [decide_eq_true_eq, List.length_cons]
          omega
        · rw [List.all_eq_true]
          exact hlall
        · rw [List.all_eq_true, List.forall_mem_cons]
          exact ⟨by decide, fun x hx => hrall x (by simp [hx])⟩

theorem valid_compact_v4 (ls rs : List (List Char)) (v4 : List Char)
    (hlall : ∀ h ∈ ls, ipPair h = true) (hrall : ∀ h ∈ rs, ipPair h = true)
    (hv4 : ipV4Pattern v4 = true) :
    (isValidIp (.str (joinC ':' ls ++ ':' :: ':' ::
      joinC ':' (rs ++ [v4]))) = true) ↔ ls.length + rs.length ≤ 5 := by
  have hlnil : ∀ p ∈ ls, p ≠ [] := fun p hp => ipPair_ne_nil p (hlall p hp)
  have hlcf : ∀ p ∈ ls, ∀ c ∈ p, c ≠ ':' :=
    fun p hp => ipPair_colonFree p (hlall p hp)
  have hvnil := ipV4Pattern_ne_nil v4 hv4
  have hvcf := ipV4Pattern_colonFree v4 hv4
  have hrnil2 : ∀ p ∈ rs ++ [v4], p ≠ [] := by
    intro p hp
    rcases List.mem_append.mp hp with h | h
    · exact ipPair_ne_nil p (hrall p h)
    · rw [List.mem_singleton.mp h]
      exact hvnil
  have hrcf2 : ∀ p ∈ rs ++ [v4], ∀ c ∈ p, c ≠ ':' := by
    intro p hp
    rcases List.mem_append.mp hp with h | h
    · exact ipPair_colonFree p (hrall p h)
    · rw [List.mem_singleton.mp h]
      exact hvcf
  have hjne : joinC ':' (rs ++ [v4]) ≠ [] :=
    joinC_ne_nil (rs ++ [v4]) (by simp) hrnil2
  have hdc := compact_ne_dcolon (joinC ':' ls) (joinC ':' (rs ++ [v4])) hjne
  rw [isValidIp_compact _ hdc ls (['0'] :: (rs ++ [v4]))
    (parse_join_compact ls (rs ++ [v4]) hlnil hlcf hrnil2 hrcf2)]
  rw [show (['0'] :: (rs ++ [v4]) : List (List Char)) = (['0'] :: rs) ++ [v4]
    from rfl, isValidCompactIp_concat, if_pos hv4]
  constructor
  · intro h
    rw [Bool.and_eq_true, Bool.and_eq_true] at h
    have hc := h.1.1
    simp only [decide_eq_true_eq, List.length_cons] at hc
    omega
  · intro hc
    rw [Bool.and_eq_true, Bool.and_eq_true]
    refine ⟨⟨?_, ?_⟩, ?_⟩
    · simp only [decide_eq_true_eq, List.length_cons]
      omega
    · rw [List.all_eq_true]
      exact hlall
    · rw [List.all_eq_true, List.forall_mem_cons]
      exact ⟨by decide, hrall⟩

/-!
Unfolded forms of the two component validators.
-/

theorem isValidCompactIp_eq (left right : List (List Char)) :
    isValidCompactIp left right =
      if ipV4Pattern ((right.getLast?).getD []) then
        decide (left.length + right.dropLast.length ≤ 6) && left.all ipPair &&
          right.dropLast.all ipPair
      else
        decide (left.length + right.dropLast.length ≤ 7) && left.all ipPair &&
          right.dropLast.all ipPair && ipPair ((right.getLast?).getD []) := rfl

theorem isValidFullIp_eq (value : List (List Char)) :
    isValidFullIp value =
      if ipV4Pattern ((value.getLast?).getD []) then
        value.dropLast.length == 6 && value.dropLast.all ipPair
      else
        value.dropLast.length == 7 && value.dropLast.all ipPair &&
          ipPair ((value.getLast?).getD []) := rfl

/-!
The claims.
-/

/-- Claim C5: a string of colon-separated valid hextets with no compaction
is accepted exactly when there are eight of them; with seven or nine valid
hextets the validator returns false. -/
theorem claim_C5 (hs : List (List Char)) (hall : ∀ h ∈ hs, ipPair h = true) :
    (hs.length = 8 → isValidIp (.str (joinC ':' hs)) = true) ∧
    ((hs.length = 7 ∨ hs.length = 9) →
      isValidIp (.str (joinC ':' hs)) = false) := by
  constructor
  · intro h8
    have hne : hs ≠ [] := by
      intro h
      subst h
      simp at h8
    exact (valid_full_hextets hs hne hall).mpr h8
  · intro h79
    have hne : hs ≠ [] := by
      intro h
      subst h
      simp at h79
    have hiff := valid_full_hextets hs hne hall
    cases hv : isValidIp (.str (joinC ':' hs)) with
    | false => rfl
    | true =>
      have := hiff.mp hv
      omega

/-- Witness for C5 at the concrete hextet lists of lengths 8 and 7. -/
theorem claim_C5_witness :
    isValidIp (.str (joinC ':'
      [['1'], ['2'], ['3'], ['4'], ['5'], ['6'], ['7'], ['8']])) = true ∧
    isValidIp (.str (joinC ':'
      [['1'], ['2'], ['3'], ['4'], ['5'], ['6'], ['7']])) = false :=
  ⟨(claim_C5 [['1'], ['2'], ['3'], ['4'], ['5'], ['6'], ['7'], ['8']]
      (by decide)).1 (by decide),
   (claim_C5 [['1'], ['2'], ['3'], ['4'], ['5'], ['6'], ['7']]
      (by decide)).2 (Or.inl (by decide))⟩

/-- Claim C3: a compact input ending in a trailing double colon whose
explicit components are all valid hextets is accepted exactly when at most
seven explicit hextets occur (so seven passes and eight fails); and on
every accepted compact tuple the count of explicit components, with the
synthetic zero counted and the popped last component removed, is bounded
by six when the popped component is a dotted-quad and by seven
otherwise. -/
theorem claim_C3 (hs : List (List Char)) (hall : ∀ h ∈ hs, ipPair h = true) :
    (isValidIp (.str (joinC ':' hs ++ [':', ':'])) = true ↔ hs.length ≤ 7) ∧
    (∀ left right : List (List Char), isValidCompactIp left right = true →
      (ipV4Pattern ((right.getLast?).getD []) = true →
        left.length + right.dropLast.length ≤ 6) ∧
      (ipV4Pattern ((right.getLast?).getD []) = false →
        left.length + right.dropLast.length ≤ 7)) := by
  constructor
  · have := valid_compact_hextets hs [] hall (by simp)
    simpa using this
  · intro left right hacc
    constructor
    · intro hv
      rw [isValidCompactIp_eq, if_pos hv, Bool.and_eq_true, Bool.and_eq_true]
        at hacc
      have := hacc.1.1
      simpa using this
    · intro hv
      rw [isValidCompactIp_eq, if_neg (by simp [hv]), Bool.and_eq_true,
        Bool.and_eq_true, Bool.and_eq_true] at hacc
      have := hacc.1.1.1
      simpa using this

/-- Witness for C3 at the boundary inputs 11:...:77:: (seven explicit
hextets, accepted) and at a concrete accepted compact tuple. -/
theorem claim_C3_witness :
    isValidIp (.str (joinC ':'
      [['1', '1'], ['2', '2'], ['3', '3'], ['4', '4'], ['5', '5'], ['6', '6'],
        ['7', '7']] ++ [':', ':'])) = true ∧
    ([['1']] : List (List Char)).length +
      ([['0'], ['2']] : List (List Char)).dropLast.length ≤ 7 :=
  ⟨(claim_C3 [['1', '1'], ['2', '2'], ['3', '3'], ['4', '4'], ['5', '5'],
      ['6', '6'], ['7', '7']] (by decide)).1.mpr (by decide),
   ((claim_C3 [] (by decide)).2 [['1']] [['0'], ['2']] (by decide)).2
      (by decide)⟩

/-- Claim C4: in full form, an address whose last colon-separated field is
a dotted-quad is accepted exactly when six valid hextets precede it; in
compact form such an address is accepted only if the explicit component
count (synthetic zero included, quad excluded) is at most six and every
explicit component is a valid hextet. -/
theorem claim_C4 (hs : List (List Char)) (v4 : List Char)
    (hnil : ∀ p ∈ hs, p ≠ []) (hcf : ∀ p ∈ hs, ∀ c ∈ p, c ≠ ':')
    (hv4 : ipV4Pattern v4 = true) :
    ((isValidIp (.str (joinC ':' (hs ++ [v4]))) = true) ↔
      (hs.length = 6 ∧ ∀ h ∈ hs, ipPair h = true)) ∧
    (∀ left right : List (List Char), isValidCompactIp left right = true →
      ipV4Pattern ((right.getLast?).getD []) = true →
      left.length + right.dropLast.length ≤ 6 ∧
        (∀ h ∈ left, ipPair h = true) ∧
        ∀ h ∈ right.dropLast, ipPair h = true) := by
  constructor
  · exact valid_full_v4 hs v4 hnil hcf hv4
  · intro left right hacc hv
    rw [isValidCompactIp_eq, if_pos hv, Bool.and_eq_true, Bool.and_eq_true]
      at hacc
    refine ⟨by simpa using hacc.1.1, ?_, ?_⟩
    · rw [← List.all_eq_true]
      exact hacc.1.2
    · rw [← List.all_eq_true]
      exact hacc.2

/-- Witness for C4 at 1:2:3:4:5:6:1.2.3.4 (accepted) and at a concrete
accepted compact tuple ending in a dotted-quad. -/
theorem claim_C4_witness :
    isValidIp (.str (joinC ':'
      ([['1'], ['2'], ['3'], ['4'], ['5'], ['6']] ++
        [['1', '.', '2', '.', '3', '.', '4']]))) = true ∧
    ([] : List (List Char)).length +
      ([['0'], ['1', '.', '2', '.', '3', '.', '4']] :
        List (List Char)).dropLast.length ≤ 6 :=
  ⟨(claim_C4 [['1'], ['2'], ['3'], ['4'], ['5'], ['6']]
      ['1', '.', '2', '.', '3', '.', '4'] (by decide) (by decide)
      (by decide)).1.mpr ⟨by decide, by decide⟩,
   (((claim_C4 [] ['1', '.', '2', '.', '3', '.', '4'] (by decide) (by decide)
      (by decide)).2 [] [['0'], ['1', '.', '2', '.', '3', '.', '4']]
      (by decide) (by decide)).1)⟩

/-- Claim C6: every non-string value is rejected by both validators, and
the exact string consisting of two colons is accepted at once by the IPv6
validator. -/
theorem claim_C6 :
    (∀ v : JsValue, (∀ s, v ≠ .str s) →
      isValidIp v = false ∧ isValidIpV4 v = false) ∧
    isValidIp (.str (cs "::")) = true := by
  constructor
  · intro v hv
    cases v with
    | str s => exact absurd rfl (hv s)
    | boolean b => exact ⟨rfl, rfl⟩
    | null => exact ⟨rfl, rfl⟩
    | undefined => exact ⟨rfl, rfl⟩
    | number n => exact ⟨rfl, rfl⟩
    | bigint n => exact ⟨rfl, rfl⟩
    | symbol => exact ⟨rfl, rfl⟩
    | object => exact ⟨rfl, rfl⟩
    | array => exact ⟨rfl, rfl⟩
  · decide

/-- Witness for C6 at the non-string value null. -/
theorem claim_C6_witness :
    isValidIp JsValue.null = false ∧ isValidIpV4 JsValue.null = false :=
  claim_C6.1 JsValue.null (fun s h => JsValue.noConfusion h)

/-- Claim C8: both validators are total boolean functions of the embedded
input domain: every value is mapped to one of the two booleans. -/
theorem claim_C8 : ∀ v : JsValue,
    (isValidIp v = true ∨ isValidIp v = false) ∧
    (isValidIpV4 v = true ∨ isValidIpV4 v = false) := by
  intro v
  constructor
  · cases h : isValidIp v
    · exact Or.inr rfl
    · exact Or.inl rfl
  · cases h : isValidIpV4 v
    · exact Or.inr rfl
    · exact Or.inl rfl

/-- Claim C10: whenever the parser detects compaction, the right half
starts with the synthetic component 0 and is nonempty, so popping its last
element is always defined. -/
theorem claim_C10 : ∀ (s : List Char) (l r : List (List Char)),
    parsePossibleIpString s = .compact l r →
      r.head? = some ['0'] ∧ r.getLast? ≠ none := by
  intro s l r hp
  rcases hf : (popEmpty (shiftEmpty (splitOnC ':' s))).findIdx? List.isEmpty
    with _ | i
  · rw [parse_eq_full s _ rfl hf] at hp
    exact Parsed.noConfusion hp
  · rw [parse_eq_compact s _ i rfl hf] at hp
    injection hp with h1 h2
    subst h2
    constructor
    · rfl
    · intro hnone
      exact List.noConfusion (List.getLast?_eq_none_iff.mp hnone)

/-- Witness for C10 at the concrete input 1::2. -/
theorem claim_C10_witness :
    ([['0'], ['2']] : List (List Char)).head? = some ['0'] ∧
    ([['0'], ['2']] : List (List Char)).getLast? ≠ none :=
  claim_C10 (cs "1::2") [['1']] [['0'], ['2']] (by decide)

/-- Claim C2: the IPv4 matcher accepts a string exactly when it consists
of four dot-separated fields, each the minimal-digit decimal
representation of an integer 0 to 255: all-digit fields with no leading
zero except the single-digit field 0, value at most 255, and exactly four
fields. -/
theorem claim_C2 (s : List Char) : ipV4Pattern s = true ↔ SpecIPv4 s :=
  ipV4Pattern_iff s

/-!
Stray-colon machinery for C9: adding one colon at an end that does not
already carry one is erased by the trimming steps.
-/

theorem isValidIp_parse (s : List Char) (hne : s ≠ cs "::") :
    isValidIp (.str s) =
      (match parsePossibleIpString s with
       | Parsed.full parts => isValidFullIp parts
       | Parsed.compact left right => isValidCompactIp left right) := by
  show (if s = cs "::" then true
    else
      match parsePossibleIpString s with
      | .full parts => isValidFullIp parts
      | .compact left right => isValidCompactIp left right) = _
  rw [if_neg hne]

theorem head?_splitOnC_cons (c : Char) (t : List Char) (hc : c ≠ ':') :
    ∃ z, (splitOnC ':' (c :: t)).head? = some (c :: z) := by
  rw [splitOnC_cons, if_neg hc]
  exact ⟨(splitOnC ':' t).headD [], rfl⟩

theorem getLast?_splitOnC_concat (sep e : Char) (s : List Char)
    (he : e ≠ sep) :
    ∃ z, (splitOnC sep (s ++ [e])).getLast? = some (z ++ [e]) := by
  induction s with
  | nil =>
    rw [List.nil_append, splitOnC_sepFree sep [e] (by simpa using he)]
    exact ⟨[], rfl⟩
  | cons c s ih =>
    obtain ⟨z, hz⟩ := ih
    rw [List.cons_append, splitOnC_cons]
    cases hsp : splitOnC sep (s ++ [e]) with
    | nil => exact absurd hsp (splitOnC_ne_nil sep (s ++ [e]))
    | cons p ps =>
      rw [hsp] at hz
      by_cases hc : c = sep
      · rw [if_pos hc]
        exact ⟨z, by simpa using hz⟩
      · rw [if_neg hc]
        cases ps with
        | nil =>
          simp only [List.getLast?_singleton, Option.some.injEq] at hz
          exact ⟨c :: z, by simp [hz]⟩
        | cons q qs =>
          refine ⟨z, ?_⟩
          simp only [List.headD_cons, List.tail_cons]
          rw [List.getLast?_cons_cons] at hz ⊢
          exact hz

theorem getLast?_splitOnC_ne (s : List Char) (hne : s ≠ [])
    (hl : s.getLast? ≠ some ':') : (splitOnC ':' s).getLast? ≠ some [] := by
  rcases List.eq_nil_or_concat s with heq | ⟨t, e, hte⟩
  · exact absurd heq hne
  · rw [hte, List.concat_eq_append] at hl ⊢
    rw [List.getLast?_concat] at hl
    have he : e ≠ ':' := fun h => hl (by rw [h])
    obtain ⟨z, hz⟩ := getLast?_splitOnC_concat ':' e t he
    rw [hz]
    simp only [ne_eq, Option.some.injEq]
    intro hcontra
    exact absurd hcontra (by simp)

/-- Claim C9: a single stray colon at an end never changes the verdict:
for a string not beginning with a colon, adding one in front yields the
same result, and for a string not ending in a colon, adding one at the
back yields the same result; in particular the non-literal
:1:2:3:4:5:6:7:8 is accepted. -/
theorem claim_C9 :
    (∀ s : List Char, s.head? ≠ some ':' →
      isValidIp (.str (':' :: s)) = isValidIp (.str s)) ∧
    (∀ s : List Char, s.getLast? ≠ some ':' →
      isValidIp (.str (s ++ [':'])) = isValidIp (.str s)) ∧
    isValidIp (.str (cs ":1:2:3:4:5:6:7:8")) = true := by
  refine ⟨?_, ?_, by decide⟩
  · intro s hh
    by_cases hnil : s = []
    · subst hnil
      decide
    · obtain ⟨c, t, rfl⟩ := List.exists_cons_of_ne_nil hnil
      have hc : c ≠ ':' := by
        intro h
        subst h
        exact hh rfl
      have hs2 : c :: t ≠ cs "::" := by
        intro he
        have h2 : cs "::" = [':', ':'] := rfl
        rw [h2, List.cons.injEq] at he
        exact hc he.1
      have hs3 : ':' :: c :: t ≠ cs "::" := by
        intro he
        have h2 : cs "::" = [':', ':'] := rfl
        rw [h2, List.cons.injEq, List.cons.injEq] at he
        exact hc he.2.1
      obtain ⟨z, hz⟩ := head?_splitOnC_cons c t hc
      have hparse : parsePossibleIpString (':' :: c :: t) =
          parsePossibleIpString (c :: t) := by
        unfold parsePossibleIpString
        rw [splitOnC_colon_cons, shiftEmpty_cons_empty,
          shiftEmpty_of_head _ (by rw [hz]; simp)]
      rw [isValidIp_parse _ hs3, isValidIp_parse _ hs2, hparse]
  · intro s hl
    by_cases hnil : s = []
    · subst hnil
      decide
    · have hs2 : s ≠ cs "::" := by
        intro he
        subst he
        exact hl rfl
      have hs3 : s ++ [':'] ≠ cs "::" := by
        intro he
        have h2 : cs "::" = [':'] ++ [':'] := rfl
        rw [h2] at he
        have := List.append_inj_left' he rfl
        subst this
        exact hl rfl
      have hsplit : splitOnC ':' (s ++ [':']) = splitOnC ':' s ++ [[]] := by
        rw [show (s ++ [':'] : List Char) = s ++ ':' :: [] from rfl,
          splitOnC_append, splitOnC_nil]
      have hlast : (shiftEmpty (splitOnC ':' s)).getLast? ≠ some [] := by
        cases hsp : splitOnC ':' s with
        | nil => exact absurd hsp (splitOnC_ne_nil ':' s)
        | cons p ps =>
          by_cases hp : p = []
          · subst hp
            rw [shiftEmpty_cons_empty]
            obtain ⟨c, t, rfl⟩ := List.exists_cons_of_ne_nil hnil
            have hc : c = ':' := by
              by_contra hcn
              obtain ⟨z, hz⟩ := head?_splitOnC_cons c t hcn
              rw [hsp] at hz
              simp at hz
            subst hc
            rw [splitOnC_colon_cons] at hsp
            have hts : splitOnC ':' t = ps := (List.cons.injEq _ _ _ _ |>.mp hsp).2
            have ht : t ≠ [] := by
              intro h
              subst h
              apply hl
              rfl
            have htl : t.getLast? ≠ some ':' := by
              rw [show (':' :: t : List Char).getLast? = t.getLast? by
                cases t with
                | nil => exact absurd rfl ht
                | cons x xs => exact List.getLast?_cons_cons] at hl
              exact hl
            rw [← hts]
            exact getLast?_splitOnC_ne t ht htl
          · rw [shiftEmpty_of_head _ (by simp [hp])]
            rw [← hsp]
            exact getLast?_splitOnC_ne s hnil hl
      have hparse : parsePossibleIpString (s ++ [':']) =
          parsePossibleIpString s := by
        unfold parsePossibleIpString
        rw [hsplit]
        have hshift2 : shiftEmpty (splitOnC ':' s ++ [[]]) =
            shiftEmpty (splitOnC ':' s) ++ [[]] := by
          cases hsp : splitOnC ':' s with
          | nil => exact absurd hsp (splitOnC_ne_nil ':' s)
          | cons p ps =>
            by_cases hp : p = []
            · subst hp
              rw [List.cons_append, shiftEmpty_cons_empty, shiftEmpty_cons_empty]
            · rw [shiftEmpty_of_head _ (by simp [hp]),
                shiftEmpty_of_head _ (by simp [hp])]
        rw [hshift2, popEmpty_concat_empty, popEmpty_of_last _ hlast]
      rw [isValidIp_parse _ hs3, isValidIp_parse _ hs2, hparse]

/-- Witness for C9 at the eight-hextet string 1:2:3:4:5:6:7:8. -/
theorem claim_C9_witness :
    isValidIp (.str (':' :: cs "1:2:3:4:5:6:7:8")) =
      isValidIp (.str (cs "1:2:3:4:5:6:7:8")) ∧
    isValidIp (.str (cs "1:2:3:4:5:6:7:8" ++ [':'])) =
      isValidIp (.str (cs "1:2:3:4:5:6:7:8")) :=
  ⟨claim_C9.1 (cs "1:2:3:4:5:6:7:8") (by decide),
   claim_C9.2.1 (cs "1:2:3:4:5:6:7:8") (by decide)⟩

/-!
Machinery for C7: a second compaction marker leaves an empty component in
the right half, which the compact validator rejects.
-/

theorem findIdx?_shift {α : Type} (p : α → Bool) (l : List α) (n : Nat) :
    List.findIdx? p l n = (List.findIdx? p l 0).map (fun j => j + n) := by
  induction l generalizing n with
  | nil => simp [List.findIdx?_nil]
  | cons a l ih =>
    rw [List.findIdx?_cons, List.findIdx?_cons]
    by_cases hp : p a = true
    · simp [hp]
    · simp only [hp, Bool.false_eq_true, if_false]
      rw [ih (n + 1), ih 1, Option.map_map]
      congr 1
      funext j
      simp
      omega

theorem exists_findIdx_drop (A M : List (List Char)) (hM : ([] : List Char) ∈ M) :
    ∃ i, (A ++ [] :: M).findIdx? List.isEmpty = some i ∧
      ([] : List Char) ∈ (A ++ [] :: M).drop (i + 1) := by
  induction A with
  | nil =>
    refine ⟨0, ?_, by simpa using hM⟩
    rw [List.nil_append, List.findIdx?_cons]
    simp
  | cons x A0 ih =>
    by_cases hx : x = []
    · subst hx
      refine ⟨0, ?_, ?_⟩
      · rw [List.cons_append, List.findIdx?_cons]
        simp
      · simp only [List.cons_append, List.drop_succ_cons, List.drop_zero]
        exact List.mem_append.mpr (Or.inr (by simp [hM]))
    · obtain ⟨i0, h1, h2⟩ := ih
      refine ⟨i0 + 1, ?_, ?_⟩
      · rw [List.cons_append, List.findIdx?_cons,
          if_neg (by simp [List.isEmpty_iff, hx]), findIdx?_shift, h1]
        rfl
      · simpa using h2

theorem isValidCompactIp_false_of_empty (left right : List (List Char))
    (h : ([] : List Char) ∈ right) :
    isValidCompactIp left right = false := by
  rcases List.eq_nil_or_concat right with heq | ⟨L, b, hLb⟩
  · subst heq
    cases h
  · subst hLb
    simp only [List.concat_eq_append] at h ⊢
    rw [isValidCompactIp_concat]
    rcases List.mem_append.mp h with hL | hb
    · have hfail : L.all ipPair = false := by
        rw [Bool.eq_false_iff]
        intro hall
        rw [List.all_eq_true] at hall
        have := hall [] hL
        simp [ipPair] at this
      split
      · simp [hfail]
      · simp [hfail]
    · have hb2 : b = [] := by
        rw [List.mem_singleton] at hb
        exact hb.symm
      subst hb2
      rw [if_neg (by simp [ipV4Pattern, splitOnC_nil])]
      simp [ipPair]

theorem trim_two_empties (SA SB SC : List (List Char)) (hSA : SA ≠ [])
    (hSC : SC ≠ []) :
    ∃ A M, popEmpty (shiftEmpty (SA ++ [] :: (SB ++ [] :: SC))) =
      A ++ [] :: M ∧ ([] : List Char) ∈ M := by
  obtain ⟨x, SA0, rfl⟩ := List.exists_cons_of_ne_nil hSA
  have hstep : ∃ A1, shiftEmpty ((x :: SA0) ++ [] :: (SB ++ [] :: SC)) =
      A1 ++ [] :: (SB ++ [] :: SC) := by
    by_cases hx : x = []
    · subst hx
      rw [List.cons_append, shiftEmpty_cons_empty]
      exact ⟨SA0, rfl⟩
    · rw [shiftEmpty_of_head _ (by simp [hx])]
      exact ⟨x :: SA0, rfl⟩
  obtain ⟨A1, hA1⟩ := hstep
  rw [hA1]
  rcases List.eq_nil_or_concat SC with heq | ⟨L, e, hLe⟩
  · exact absurd heq hSC
  · subst hLe
    simp only [List.concat_eq_append]
    by_cases he : e = []
    · subst he
      rw [show (A1 ++ [] :: (SB ++ [] :: (L ++ [[]])) : List (List Char)) =
        (A1 ++ [] :: (SB ++ [] :: L)) ++ [[]] by simp, popEmpty_concat_empty]
      exact ⟨A1, SB ++ [] :: L, rfl, by simp⟩
    · rw [popEmpty_of_last _ (by
        rw [show (A1 ++ [] :: (SB ++ [] :: (L ++ [e])) : List (List Char)) =
          (A1 ++ [] :: (SB ++ [] :: L)) ++ [e] by simp, List.getLast?_concat]
        simp [he])]
      exact ⟨A1, SB ++ [] :: (L ++ [e]), rfl, by simp⟩

/-- Claim C7: every string containing two double-colon markers is
rejected: the extra marker leaves an empty component in the right half of
the parse, which fails the hextet grammar check; in particular
11::22::33 is rejected. -/
theorem claim_C7 :
    (∀ a b c : List Char,
      isValidIp (.str (a ++ ':' :: ':' :: (b ++ ':' :: ':' :: c))) = false) ∧
    isValidIp (.str (cs "11::22::33")) = false := by
  refine ⟨?_, by decide⟩
  intro a b c
  have hsplit : splitOnC ':' (a ++ ':' :: ':' :: (b ++ ':' :: ':' :: c)) =
      splitOnC ':' a ++ [] ::
        (splitOnC ':' b ++ [] :: splitOnC ':' c) := by
    rw [splitOnC_append, splitOnC_colon_cons, splitOnC_append,
      splitOnC_colon_cons]
  have hne : (a ++ ':' :: ':' :: (b ++ ':' :: ':' :: c)) ≠ cs "::" := by
    intro he
    have hlen : (a ++ ':' :: ':' :: (b ++ ':' :: ':' :: c)).length = 2 := by
      rw [he]
      rfl
    simp only [List.length_append, List.length_cons] at hlen
    omega
  obtain ⟨A, M, hQ, hM⟩ := trim_two_empties (splitOnC ':' a) (splitOnC ':' b)
    (splitOnC ':' c) (splitOnC_ne_nil ':' a) (splitOnC_ne_nil ':' c)
  obtain ⟨i, hfind, hdrop⟩ := exists_findIdx_drop A M hM
  have hparse := parse_eq_compact (a ++ ':' :: ':' :: (b ++ ':' :: ':' :: c))
    (A ++ [] :: M) i (by rw [hsplit]; exact hQ) hfind
  rw [isValidIp_compact _ hne _ _ hparse]
  exact isValidCompactIp_false_of_empty _ _ (List.mem_cons_of_mem _ hdrop)

/-!
Machinery for C1: inverting the trimming steps and the index search.
-/

theorem findIdx?_none_mem {α : Type} (p : α → Bool) (l : List α) (n : Nat)
    (h : List.findIdx? p l n = none) : ∀ x ∈ l, p x = false := by
  induction l generalizing n with
  | nil => simp
  | cons a l ih =>
    rw [List.findIdx?_cons] at h
    by_cases hp : p a = true
    · rw [if_pos hp] at h
      exact Option.noConfusion h
    · rw [if_neg hp] at h
      intro x hx
      rcases List.mem_cons.mp hx with rfl | hx2
      · exact Bool.eq_false_iff.mpr hp
      · exact ih (n + 1) h x hx2

theorem findIdx?_some_decomp {α : Type} (p : α → Bool) (l : List α) (i : Nat)
    (h : List.findIdx? p l 0 = some i) :
    ∃ x, l = l.take i ++ x :: l.drop (i + 1) ∧ p x = true ∧
      (∀ y ∈ l.take i, p y = false) ∧ (l.take i).length = i := by
  induction l generalizing i with
  | nil => exact Option.noConfusion h
  | cons a l ih =>
    rw [List.findIdx?_cons] at h
    by_cases hp : p a = true
    · rw [if_pos hp] at h
      have hi : i = 0 := by
        have := Option.some.injEq 0 i |>.mp h
        omega
      subst hi
      exact ⟨a, by simp, hp, by simp, by simp⟩
    · rw [if_neg hp, findIdx?_shift] at h
      rcases hj : List.findIdx? p l 0 with _ | j
      · rw [hj] at h
        exact Option.noConfusion h
      · rw [hj] at h
        simp only [Option.map_some'] at h
        have hji : j + 1 = i := by
          have := Option.some.injEq (j + 1) i |>.mp h
          omega
        obtain ⟨x, hdec, hx, htake, hlen⟩ := ih j hj
        subst hji
        refine ⟨x, ?_, hx, ?_, ?_⟩
        · simp only [List.take_succ_cons, List.drop_succ_cons]
          rw [List.cons_append]
          exact congrArg (a :: ·) hdec
        · intro y hy
          simp only [List.take_succ_cons] at hy
          rcases List.mem_cons.mp hy with rfl | hy2
          · exact Bool.eq_false_iff.mpr hp
          · exact htake y hy2
        · simpa using hlen

theorem popEmpty_pos (parts : List (List Char))
    (h : parts.getLast? = some []) : popEmpty parts = parts.dropLast :=
  if_pos h

theorem head?_dropLast_ne (p : List Char) (t : List (List Char))
    (hp : p ≠ []) (hne : (p :: t).dropLast ≠ []) :
    ((p :: t).dropLast).head? ≠ some [] := by
  cases t with
  | nil => exact absurd rfl hne
  | cons q ts =>
    rw [List.dropLast_cons₂]
    simp [hp]

theorem decor (s : List Char) (Q : List (List Char)) (hQ : Q ≠ [])
    (hps : popEmpty (shiftEmpty (splitOnC ':' s)) = Q) :
    (s = joinC ':' Q ∧ Q.head? ≠ some [] ∧ Q.getLast? ≠ some []) ∨
    (s = ':' :: joinC ':' Q ∧ Q.getLast? ≠ some []) ∨
    (s = joinC ':' Q ++ [':'] ∧ Q.head? ≠ some []) ∨
    s = ':' :: (joinC ':' Q ++ [':']) := by
  have hjoin := joinC_splitOnC ':' s
  cases hP : splitOnC ':' s with
  | nil => exact absurd hP (splitOnC_ne_nil ':' s)
  | cons p t =>
    rw [hP] at hjoin hps
    by_cases hp : p = []
    · subst hp
      rw [shiftEmpty_cons_empty] at hps
      by_cases hl : t.getLast? = some []
      · rw [popEmpty_pos t hl] at hps
        have ht : t ≠ [] := by
          intro h
          subst h
          exact Option.noConfusion hl
        have hgl : t.getLast ht = [] := by
          have := List.getLast?_eq_getLast t ht
          rw [this] at hl
          exact Option.some.injEq _ _ |>.mp hl
        have hteq : t = Q ++ [[]] := by
          rw [← hps, ← hgl]
          exact (List.dropLast_append_getLast ht).symm
        right; right; right
        rw [← hjoin, joinC_cons ':' [] t ht, hteq,
          joinC_append ':' Q [[]] hQ (by simp)]
        rfl
      · rw [popEmpty_of_last t hl] at hps
        right; left
        refine ⟨?_, hps ▸ hl⟩
        rw [← hjoin, hps, joinC_cons ':' [] Q hQ]
        rfl
    · rw [shiftEmpty_of_head _ (by simp [hp])] at hps
      by_cases hl : (p :: t).getLast? = some []
      · rw [popEmpty_pos _ hl] at hps
        have ht : (p :: t) ≠ [] := by simp
        have hgl : (p :: t).getLast ht = [] := by
          have := List.getLast?_eq_getLast (p :: t) ht
          rw [this] at hl
          exact Option.some.injEq _ _ |>.mp hl
        have hteq : p :: t = Q ++ [[]] := by
          rw [← hps, ← hgl]
          exact (List.dropLast_append_getLast ht).symm
        right; right; left
        refine ⟨?_, ?_⟩
        · rw [← hjoin, hteq, joinC_append ':' Q [[]] hQ (by simp)]
          rfl
        · rw [← hps]
          exact head?_dropLast_ne p t hp (hps ▸ hQ)
      · rw [popEmpty_of_last _ hl] at hps
        left
        refine ⟨by rw [← hjoin, hps], ?_, ?_⟩
        · exact hps ▸ (show ((p :: t) : List (List Char)).head? ≠ some [] by simp [hp])
        · exact hps ▸ hl

theorem spec_complete (s : List Char) (h : SpecIPv6 s) :
    isValidIp (.str s) = true := by
  rcases h with ⟨hs, rfl, hlen, hall⟩ | ⟨hs, v4, rfl, hlen, hall, hv4⟩ |
    ⟨ls, rs, rfl, hcount, hlall, hrall⟩ |
    ⟨ls, rs, v4, rfl, hcount, hlall, hrall, hv4⟩
  · have hall2 : ∀ h ∈ hs, ipPair h = true :=
      fun h hh => (ipPair_iff h).mpr (hall h hh)
    have hne : hs ≠ [] := by
      intro h
      subst h
      simp at hlen
    exact (valid_full_hextets hs hne hall2).mpr hlen
  · have hall2 : ∀ h ∈ hs, ipPair h = true :=
      fun h hh => (ipPair_iff h).mpr (hall h hh)
    have hnil : ∀ p ∈ hs, p ≠ [] := fun p hp => ipPair_ne_nil p (hall2 p hp)
    have hcf : ∀ p ∈ hs, ∀ c ∈ p, c ≠ ':' :=
      fun p hp => ipPair_colonFree p (hall2 p hp)
    exact (valid_full_v4 hs v4 hnil hcf ((ipV4Pattern_iff v4).mpr hv4)).mpr
      ⟨hlen, hall2⟩
  · have hl2 : ∀ h ∈ ls, ipPair h = true :=
      fun h hh => (ipPair_iff h).mpr (hlall h hh)
    have hr2 : ∀ h ∈ rs, ipPair h = true :=
      fun h hh => (ipPair_iff h).mpr (hrall h hh)
    exact (valid_compact_hextets ls rs hl2 hr2).mpr (by omega)
  · have hl2 : ∀ h ∈ ls, ipPair h = true :=
      fun h hh => (ipPair_iff h).mpr (hlall h hh)
    have hr2 : ∀ h ∈ rs, ipPair h = true :=
      fun h hh => (ipPair_iff h).mpr (hrall h hh)
    exact (valid_compact_v4 ls rs v4 hl2 hr2 ((ipV4Pattern_iff v4).mpr hv4)).mpr
      (by omega)

theorem spec_sound (s : List Char) (hacc : isValidIp (.str s) = true) :
    ∃ t, SpecIPv6 t ∧
      (s = t ∨ s = ':' :: t ∨ s = t ++ [':'] ∨ s = ':' :: (t ++ [':'])) := by
  by_cases hdc : s = cs "::"
  · refine ⟨cs "::", ?_, Or.inl hdc⟩
    exact Or.inr (Or.inr (Or.inl ⟨[], [], by decide, by simp, by simp, by simp⟩))
  · rw [isValidIp_parse s hdc] at hacc
    rcases hfind : (popEmpty (shiftEmpty (splitOnC ':' s))).findIdx?
        List.isEmpty with _ | i
    · rw [parse_eq_full s _ rfl hfind] at hacc
      change isValidFullIp (popEmpty (shiftEmpty (splitOnC ':' s))) = true
        at hacc
      obtain ⟨Q, hQdef⟩ : ∃ Q, popEmpty (shiftEmpty (splitOnC ':' s)) = Q :=
        ⟨_, rfl⟩
      rw [hQdef] at hacc hfind
      have hQne : Q ≠ [] := by
        intro h
        subst h
        rw [isValidFullIp_nil] at hacc
        exact Bool.noConfusion hacc
      have hdecor4 := decor s Q hQne hQdef
      have hdecor : s = joinC ':' Q ∨ s = ':' :: joinC ':' Q ∨
          s = joinC ':' Q ++ [':'] ∨ s = ':' :: (joinC ':' Q ++ [':']) := by
        rcases hdecor4 with ⟨h1, -, -⟩ | ⟨h1, -⟩ | ⟨h1, -⟩ | h1
        · exact Or.inl h1
        · exact Or.inr (Or.inl h1)
        · exact Or.inr (Or.inr (Or.inl h1))
        · exact Or.inr (Or.inr (Or.inr h1))
      rcases List.eq_nil_or_concat Q with h | ⟨rest, last, hQc⟩
      · exact absurd h hQne
      · subst hQc
        simp only [List.concat_eq_append] at hacc hdecor ⊢
        rw [isValidFullIp_concat] at hacc
        by_cases hv : ipV4Pattern last = true
        · rw [if_pos hv, Bool.and_eq_true, beq_iff_eq, List.all_eq_true]
            at hacc
          obtain ⟨hlen, hall⟩ := hacc
          exact ⟨joinC ':' (rest ++ [last]),
            Or.inr (Or.inl ⟨rest, last, rfl, hlen,
              fun h hh => (ipPair_iff h).mp (hall h hh),
              (ipV4Pattern_iff last).mp hv⟩), hdecor⟩
        · rw [if_neg hv, Bool.and_eq_true, Bool.and_eq_true, beq_iff_eq,
            List.all_eq_true] at hacc
          obtain ⟨⟨hlen, hall⟩, hlast⟩ := hacc
          refine ⟨joinC ':' (rest ++ [last]),
            Or.inl ⟨rest ++ [last], rfl, ?_, ?_⟩, hdecor⟩
          · simp [hlen]
          · intro h hh
            rcases List.mem_append.mp hh with h1 | h1
            · exact (ipPair_iff h).mp (hall h h1)
            · rw [List.mem_singleton.mp h1]
              exact (ipPair_iff last).mp hlast
    · rw [parse_eq_compact s _ i rfl hfind] at hacc
      change isValidCompactIp
        ((popEmpty (shiftEmpty (splitOnC ':' s))).take i)
        (['0'] :: (popEmpty (shiftEmpty (splitOnC ':' s))).drop (i + 1)) = true
        at hacc
      obtain ⟨Q, hQdef⟩ : ∃ Q, popEmpty (shiftEmpty (splitOnC ':' s)) = Q :=
        ⟨_, rfl⟩
      rw [hQdef] at hacc hfind
      have hQne : Q ≠ [] := by
        intro h
        subst h
        rw [List.findIdx?_nil] at hfind
        exact Option.noConfusion hfind
      have hdecor4 := decor s Q hQne hQdef
      obtain ⟨e, hdec, he, htake, hlen⟩ :=
        findIdx?_some_decomp List.isEmpty Q i hfind
      have he2 : e = [] := List.isEmpty_iff.mp he
      subst he2
      obtain ⟨A, hA⟩ : ∃ A, Q.take i = A := ⟨_, rfl⟩
      obtain ⟨D, hD⟩ : ∃ D, Q.drop (i + 1) = D := ⟨_, rfl⟩
      rw [hA] at hacc hdec htake hlen
      rw [hD] at hacc hdec
      rcases List.eq_nil_or_concat D with hD0 | ⟨mid, lastE, hDc⟩
      · subst hD0
        rw [show ((['0'] : List Char) :: ([] : List (List Char))) =
          [] ++ [['0']] from rfl, isValidCompactIp_concat] at hacc
        rw [if_neg (by decide : ¬ ipV4Pattern ['0'] = true)] at hacc
        rw [Bool.and_eq_true, Bool.and_eq_true, Bool.and_eq_true] at hacc
        obtain ⟨⟨⟨hlen7, hAall⟩, -⟩, -⟩ := hacc
        simp only [decide_eq_true_eq, List.length_nil] at hlen7
        rw [List.all_eq_true] at hAall
        have hQl : Q.getLast? = some [] := by
          rw [hdec]
          exact List.getLast?_concat A
        by_cases hA0 : A = []
        · subst hA0
          have hQh : Q.head? = some [] := by
            rw [hdec]
            rfl
          rcases hdecor4 with ⟨-, hh, -⟩ | ⟨-, hl⟩ | ⟨-, hh⟩ | hs4
          · exact absurd hQh hh
          · exact absurd hQl hl
          · exact absurd hQh hh
          · exfalso
            apply hdc
            rw [hs4, hdec]
            decide
        · have ht : SpecIPv6 (joinC ':' A ++ ':' :: ':' ::
              joinC ':' ([] : List (List Char))) :=
            Or.inr (Or.inr (Or.inl ⟨A, [], rfl, by simp [*]; omega,
              fun h hh => (ipPair_iff h).mp (hAall h hh), by simp⟩))
          refine ⟨joinC ':' A ++ ':' :: ':' ::
            joinC ':' ([] : List (List Char)), ht, ?_⟩
          have hjq : joinC ':' Q ++ [':'] =
              joinC ':' A ++ ':' :: ':' :: joinC ':' ([] : List (List Char)) := by
            rw [hdec, joinC_append ':' A [[]] hA0 (by simp)]
            simp [joinC_nil, joinC_single]
          rcases hdecor4 with ⟨-, -, hl⟩ | ⟨-, hl⟩ | ⟨hs3, -⟩ | hs4
          · exact absurd hQl hl
          · exact absurd hQl hl
          · left
            rw [hs3, hjq]
          · right; left
            rw [hs4]
            rw [← hjq]
      · subst hDc
        simp only [List.concat_eq_append] at hacc hdec ⊢
        have hDne : (mid ++ [lastE] : List (List Char)) ≠ [] := by simp
        have hsT : s = joinC ':' A ++ ':' :: ':' :: joinC ':' (mid ++ [lastE]) ∨
            s = ':' :: (joinC ':' A ++ ':' :: ':' ::
              joinC ':' (mid ++ [lastE])) ∨
            s = (joinC ':' A ++ ':' :: ':' ::
              joinC ':' (mid ++ [lastE])) ++ [':'] ∨
            s = ':' :: ((joinC ':' A ++ ':' :: ':' ::
              joinC ':' (mid ++ [lastE])) ++ [':']) := by
          by_cases hA0 : A = []
          · subst hA0
            have hQh : Q.head? = some [] := by
              rw [hdec]
              rfl
            have hjq : joinC ':' Q =
                ':' :: joinC ':' (mid ++ [lastE]) := by
              rw [hdec, List.nil_append,
                joinC_cons ':' [] (mid ++ [lastE]) hDne]
              rfl
            rcases hdecor4 with ⟨-, hh, -⟩ | ⟨hs2, -⟩ | ⟨-, hh⟩ | hs4
            · exact absurd hQh hh
            · left
              rw [hs2, hjq]
              rfl
            · exact absurd hQh hh
            · right; right; left
              rw [hs4, hjq]
              rfl
          · have hjq : joinC ':' Q =
                joinC ':' A ++ ':' :: ':' :: joinC ':' (mid ++ [lastE]) := by
              rw [hdec, joinC_append ':' A ([] :: (mid ++ [lastE])) hA0
                (by simp), joinC_cons ':' [] (mid ++ [lastE]) hDne]
              rfl
            rcases hdecor4 with ⟨hs1, -, -⟩ | ⟨hs2, -⟩ | ⟨hs3, -⟩ | hs4
            · left
              rw [hs1, hjq]
            · right; left
              rw [hs2, hjq]
            · right; right; left
              rw [hs3, hjq]
            · right; right; right
              rw [hs4, hjq]
        rw [show ((['0'] : List Char) :: (mid ++ [lastE])) =
          (['0'] :: mid) ++ [lastE] from rfl, isValidCompactIp_concat] at hacc
        by_cases hv : ipV4Pattern lastE = true
        · rw [if_pos hv, Bool.and_eq_true, Bool.and_eq_true] at hacc
          obtain ⟨⟨hc, hAall⟩, hRall⟩ := hacc
          simp only [decide_eq_true_eq, List.length_cons] at hc
          rw [List.all_eq_true] at hAall
          rw [List.all_eq_true] at hRall
          have ht : SpecIPv6 (joinC ':' A ++ ':' :: ':' ::
              joinC ':' (mid ++ [lastE])) :=
            Or.inr (Or.inr (Or.inr ⟨A, mid, lastE, rfl, by omega,
              fun h hh => (ipPair_iff h).mp (hAall h hh),
              fun h hh => (ipPair_iff h).mp
                (hRall h (List.mem_cons_of_mem _ hh)),
              (ipV4Pattern_iff lastE).mp hv⟩))
          exact ⟨_, ht, hsT⟩
        · rw [if_neg hv, Bool.and_eq_true, Bool.and_eq_true, Bool.and_eq_true]
            at hacc
          obtain ⟨⟨⟨hc, hAall⟩, hRall⟩, hlastp⟩ := hacc
          simp only [decide_eq_true_eq, List.length_cons] at hc
          rw [List.all_eq_true] at hAall
          rw [List.all_eq_true] at hRall
          have ht : SpecIPv6 (joinC ':' A ++ ':' :: ':' ::
              joinC ':' (mid ++ [lastE])) := by
            refine Or.inr (Or.inr (Or.inl ⟨A, mid ++ [lastE], rfl, ?_, ?_, ?_⟩))
            · simp only [List.length_append, List.length_singleton]
              omega
            · exact fun h hh => (ipPair_iff h).mp (hAall h hh)
            · intro h hh
              rcases List.mem_append.mp hh with h1 | h1
              · exact (ipPair_iff h).mp
                  (hRall h (List.mem_cons_of_mem _ h1))
              · rw [List.mem_singleton.mp h1]
                exact (ipPair_iff lastE).mp hlastp
          exact ⟨_, ht, hsT⟩

theorem specHextet_head (h1 : List Char) (h : SpecHextet h1) :
    ∃ c r, h1 = c :: r ∧ c ≠ ':' := by
  obtain ⟨hl, -, hhex⟩ := h
  cases h1 with
  | nil => simp at hl
  | cons c r => exact ⟨c, r, rfl, isHexC_ne_colon c (hhex c (by simp))⟩

theorem spec_head_colon (s : List Char) (h : SpecIPv6 s)
    (hh : s.head? = some ':') : s.tail.head? = some ':' := by
  rcases h with ⟨hs, rfl, hlen, hall⟩ | ⟨hs, v4, rfl, hlen, hall, hv4⟩ |
    ⟨ls, rs, rfl, hcount, hlall, hrall⟩ |
    ⟨ls, rs, v4, rfl, hcount, hlall, hrall, hv4⟩
  · obtain ⟨h1, t, rfl⟩ : ∃ h1 t, hs = h1 :: t := by
      cases hs with
      | nil => simp at hlen
      | cons h1 t => exact ⟨h1, t, rfl⟩
    obtain ⟨c, r, rfl, hc⟩ := specHextet_head h1 (hall _ (by simp))
    exfalso
    apply hc
    have hhd : (joinC ':' ((c :: r) :: t)).head? = some c := by
      cases t
      · rfl
      · rfl
    rw [hhd] at hh
    exact Option.some.injEq _ _ |>.mp hh
  · obtain ⟨h1, t, rfl⟩ : ∃ h1 t, hs = h1 :: t := by
      cases hs with
      | nil => simp at hlen
      | cons h1 t => exact ⟨h1, t, rfl⟩
    obtain ⟨c, r, rfl, hc⟩ := specHextet_head h1 (hall _ (by simp))
    exfalso
    apply hc
    have hhd : (joinC ':' (((c :: r) :: t) ++ [v4])).head? = some c := by
      rw [List.cons_append]
      cases t ++ [v4] with
      | nil => rfl
      | cons q qs => rfl
    rw [hhd] at hh
    exact Option.some.injEq _ _ |>.mp hh
  · cases ls with
    | nil => rfl
    | cons h1 t =>
      obtain ⟨c, r, rfl, hc⟩ := specHextet_head h1 (hlall _ (by simp))
      exfalso
      apply hc
      have hhd : (joinC ':' ((c :: r) :: t) ++
          ':' :: ':' :: joinC ':' rs).head? = some c := by
        cases t
        · rfl
        · rfl
      rw [hhd] at hh
      exact Option.some.injEq _ _ |>.mp hh
  · cases ls with
    | nil => rfl
    | cons h1 t =>
      obtain ⟨c, r, rfl, hc⟩ := specHextet_head h1 (hlall _ (by simp))
      exfalso
      apply hc
      have hhd : (joinC ':' ((c :: r) :: t) ++
          ':' :: ':' :: joinC ':' (rs ++ [v4])).head? = some c := by
        cases t
        · rfl
        · rfl
      rw [hhd] at hh
      exact Option.some.injEq _ _ |>.mp hh

/-- Counterexample to claim C1 as stated: the validator accepts the
string :1:2:3:4:5:6:7:8, which is not a syntactically valid IPv6 literal
(a valid literal beginning with a colon must begin with two). -/
theorem claim_C1_counterexample :
    isValidIp (.str (cs ":1:2:3:4:5:6:7:8")) = true ∧
    ¬ SpecIPv6 (cs ":1:2:3:4:5:6:7:8") := by
  constructor
  · decide
  · intro h
    have h2 := spec_head_colon _ h (by decide)
    rw [show (cs ":1:2:3:4:5:6:7:8").tail.head? = some '1' from rfl] at h2
    have := Option.some.injEq '1' ':' |>.mp h2
    exact absurd this (by decide)

/-- Claim C1 (amended): the validator accepts every syntactically valid
IPv6 literal, and every string it accepts is a syntactically valid IPv6
literal up to the removal of one stray leading colon and/or one stray
trailing colon. -/
theorem claim_C1 :
    (∀ s : List Char, SpecIPv6 s → isValidIp (.str s) = true) ∧
    (∀ s : List Char, isValidIp (.str s) = true →
      ∃ t, SpecIPv6 t ∧
        (s = t ∨ s = ':' :: t ∨ s = t ++ [':'] ∨ s = ':' :: (t ++ [':']))) :=
  ⟨spec_complete, spec_sound⟩

/-- Witness for C1 at the valid literal 1::2 and the accepted string
::1. -/
theorem claim_C1_witness :
    isValidIp (.str (cs "1::2")) = true ∧
    ∃ t, SpecIPv6 t ∧ (cs "::1" = t ∨ cs "::1" = ':' :: t ∨
      cs "::1" = t ++ [':'] ∨ cs "::1" = ':' :: (t ++ [':'])) :=
  ⟨claim_C1.1 (cs "1::2")
    (Or.inr (Or.inr (Or.inl ⟨[['1']], [['2']], by decide, by decide,
      by decide, by decide⟩))),
   claim_C1.2 (cs "::1") (by decide)⟩
